import Mathlib

/-!
# The undo engine of uemacs (`undo.c`)

A shallow embedding of `src/undo.c` and a verification of its specification.

Conventions of the embedding:

* C `int` values (line numbers, offsets, counts, statuses) are mathematical
  integers; flag words (`b_flag`, `w_flag`) are non-negative bit sets, i.e.
  natural numbers with the bitwise operations of `Nat`.
* The one sum that `undo.c` stores, the count of two merged Delete records, is
  the sum of 32-bit `int`s, which wraps around (`wrapInt`).  The sum of offset
  and count in the merge test is only compared with an offset; for offsets from
  `NOLINE` on and counts from 0 on the exact sum and the wrapped sum give the same
  test (`merge_test_exact`).
* The circular doubly linked list of groups headed by `st->links` is the list of
  its groups from `links.next` (oldest) to `links.prev` (most recent).
* The array `g->undos[0 .. g->next)` of a group is the list of its records; the
  capacity bookkeeping (`avail`, `realloc`) is not observable and is left out.
* The ring of lines of the current buffer is the list of its lines in `lforw`
  order from the header line `b_linep`.
* Executions whose behaviour is undefined in C (a null or dangling pointer is
  dereferenced, a variadic argument of the wrong type is read, memory is read
  past its end) yield `none`.
* Only the allocation that the source checks (`malloc (n)` of a string payload)
  can fail; it fails exactly when `heap_ok` is false.
-/

namespace Uemacs

/-- The C type `uchar` (`unsigned char`). -/
abbrev uchar := Fin 256

/-- Status `FALSE` of `undo.h`. -/
abbrev FALSE : Int := 0

/-- Status `TRUE` of `undo.h`. -/
abbrev TRUE : Int := 1

/-- Status `ABORT` of `undo.h`. -/
abbrev ABORT : Int := 2

/-- Maximum number of undo operations saved. -/
abbrev N_UNDO : Int := 100

/-- Value of `UNDO.l` and `UNDO.o` meaning "not used". -/
abbrev NOLINE : Int := -1

/-- Modelled from the spec: the enumeration `UKIND` of record kinds, whose
declaration is in a header that is not under src/ (Move, InsertChar,
InsertString, Delete, and the unused marker written by `freeundo`).  Every
other value of the enumeration type is `other code`. -/
inductive UKIND where
  | UUNUSED
  | UMOVE
  | UCH
  | USTR
  | UDEL
  | other (code : Nat)
  deriving DecidableEq, Repr

/-- A single undo step (`struct UNDO`).  The three members of the union share
their first field `n`; `c` is `u.ch.c` and `s` is `u.str.s` (`none` is a pointer
that was never set or is `NULL`).  Fields that the source leaves unwritten have
the values `0` and `none`. -/
structure UNDO where
  kind : UKIND
  l : Int
  o : Int
  n : Int
  c : uchar
  s : Option (List uchar)
  deriving DecidableEq, Repr

/-- Group of undo steps (`struct UNDOGROUP`): the records `undos[0 .. next)` and
the copy of `curbp->b_flag` taken before any change. -/
structure UNDOGROUP where
  undos : List UNDO
  b_flag : Nat
  deriving DecidableEq, Repr

/-- The list of undo groups with its counter (`struct UNDOSTACK`); `groups` runs
from `links.next` to `links.prev`. -/
structure UNDOSTACK where
  groups : List UNDOGROUP
  ngroups : Int
  deriving DecidableEq, Repr

/-- A line of the buffer: its address and its text. -/
structure LINE where
  p : Nat
  text : List uchar
  deriving DecidableEq, Repr

/-- A line/offset pair (`POS`), as passed to `saveundo`. -/
structure POS where
  p : Nat
  o : Int
  deriving DecidableEq, Repr

/-- What `undo.c` reads and writes outside its own data: the current buffer
(`curbp`, which is also `curwp->w_bufp`), the current window (`curwp`) and the
allocator. -/
structure Editor where
  b_flag : Nat
  b_linep : Nat
  lines : List LINE
  w_dotp : Nat
  w_doto : Int
  w_flag : Nat
  heap_ok : Bool
  deriving DecidableEq, Repr

/-- Texts written to the message line by `mlwrite`. -/
inductive Msg where
  | stackEmpty
  | outOfMemory
  | unimplemented (kind : UKIND)
  | unknownKind (kind : UKIND)
  deriving DecidableEq, Repr

/-- The whole state: the editor, the file-scope variables `startl`, `starto`,
`undoing`, `b_flag` of `undo.c`, the undo stack `curwp->w_bufp->b_undo`
(`none` is `NULL`) and the message line. -/
structure World where
  ed : Editor
  startl : Int
  starto : Int
  undoing : Bool
  b_flag : Nat
  b_undo : Option UNDOSTACK
  mline : List Msg
  deriving DecidableEq, Repr

/-- One variadic argument of `saveundo`: an `int`, or a pointer to bytes (the
list holds the bytes that can be read from the pointer on). -/
inductive VaArg where
  | int (i : Int)
  | bytes (s : List uchar)
  deriving DecidableEq, Repr

/-- The macro `ukind(up)`, `up->kind & 0xff`: the named kinds lie in the low
byte and are unchanged. -/
def ukind (up : UNDO) : UKIND :=
  match up.kind with
  | .other code => .other (code % 256)
  | k => k

/-- The call `mlwrite (...)`. -/
def mlwrite (m : Msg) (w : World) : World :=
  { w with mline := w.mline ++ [m] }

/-- The loop of `lineno`: `clp` walks the lines, the empty list being the return
to the header line. -/
def linenoLoop (hdr lp : Nat) : List LINE → Int → Int
  | [], nline => nline
  | clp :: rest, nline =>
    if clp.p = hdr ∨ clp.p = lp then nline else linenoLoop hdr lp rest (nline + 1)

/-- Calculate the zero-based line number for a given line pointer. -/
def lineno (e : Editor) (lp : Nat) : Int :=
  linenoLoop e.b_linep lp e.lines 0

/-- Allocate a new undo stack structure without groups. -/
def newstack : UNDOSTACK :=
  { groups := [], ngroups := 0 }

/-- Allocate a new undo group structure. -/
def newgroup (w : World) : UNDOGROUP :=
  { undos := [], b_flag := w.b_flag }

/-- Append a new group after the last group `st->links.prev`. -/
def appendgroup (g : UNDOGROUP) (groups : List UNDOGROUP) : List UNDOGROUP :=
  groups ++ [g]

/-- Remove the group at position `i` from the list and free it. -/
def freegroup (i : Nat) (groups : List UNDOGROUP) : List UNDOGROUP :=
  groups.eraseIdx i

/-- Call this at the start of an undo save sequence. -/
def startsaveundo (w : World) : World :=
  let st := match w.b_undo with
    | none => newstack
    | some st => st
  { w with
    b_undo := some st
    startl := lineno w.ed w.ed.w_dotp
    starto := w.ed.w_doto
    b_flag := w.ed.b_flag
    undoing := false }

/-- Call this at the end of an undo save sequence; it does nothing. -/
def endsaveundo (w : World) : World := w

/-- Prevent subsequent saveundo calls from storing data. -/
def disablesaveundo (w : World) : World :=
  { w with undoing := true }

/-- Allow subsequent saveundo calls to store data. -/
def enablesaveundo (w : World) : World :=
  { w with undoing := false }

/-- The most recently saved undo record, or `none` (`NULL`) if there is none. -/
def lastundo (st : UNDOSTACK) : Option UNDO :=
  match st.groups.getLast? with
  | none => none
  | some g => g.undos.getLast?

/-- Apply `f` to the last element of a list. -/
def updLast {α : Type} (f : α → α) : List α → List α
  | [] => []
  | [a] => [f a]
  | a :: b :: l => a :: updLast f (b :: l)

/-- Write through a pointer to the last record of the last group. -/
def setUp (f : UNDO → UNDO) (st : UNDOSTACK) : UNDOSTACK :=
  { st with groups := updLast (fun g => { g with undos := updLast f g.undos }) st.groups }

/-- The record that `newundo` initializes. -/
def freshUndo (kind : UKIND) (line offset : Int) : UNDO :=
  { kind := kind, l := line, o := offset, n := 0, c := 0, s := none }

/-- The first half of `newundo`: when `startl` has been set by `startsaveundo`,
create a group, place it at the end of the list of groups and, if the maximum
number of groups has been reached, recycle the first one in the list. -/
def openGroup (w : World) (st : UNDOSTACK) : UNDOSTACK :=
  if w.startl ≠ NOLINE then
    let groups := appendgroup (newgroup w) st.groups
    if st.ngroups ≥ N_UNDO then
      { groups := freegroup 0 groups, ngroups := st.ngroups }
    else
      { groups := groups, ngroups := st.ngroups + 1 }
  else st

/-- Allocate a new undo record as the last record of the last group, creating a
new group first when `startl` has been set; the result is the new stack, the
returned pointer `up` being its last record.  Without a last group the pointer
`g` does not point to a group. -/
def newundo (w : World) (st : UNDOSTACK) (kind : UKIND) (line offset : Int) :
    Option UNDOSTACK :=
  let st1 := openGroup w st
  match st1.groups.getLast? with
  | none => none
  | some _ =>
    some { st1 with
      groups := updLast
        (fun g => { g with undos := g.undos ++ [freshUndo kind line offset] }) st1.groups }

/-- The expression `va_arg (ap, int)`. -/
def va_arg_int : List VaArg → Option (Int × List VaArg)
  | .int i :: ap => some (i, ap)
  | _ => none

/-- The expression `va_arg (ap, const uchar *)`. -/
def va_arg_ptr : List VaArg → Option (List uchar × List VaArg)
  | .bytes s :: ap => some (s, ap)
  | _ => none

/-- Conversion of an `int` to `uchar`. -/
def toUchar (i : Int) : uchar :=
  ⟨(i % 256).toNat, by omega⟩

/-- The line number and offset that `saveundo` uses for its record. -/
def undoPos (w : World) (pos : Option POS) : Int × Int :=
  match pos with
  | some p => (lineno w.ed p.p, p.o)
  | none => if w.startl ≠ NOLINE then (w.startl, w.starto) else (NOLINE, NOLINE)

/-- The value that a 32-bit `int` holds after an addition whose exact result is
`x`: the result wraps around at `INT_MAX`. -/
def wrapInt (x : Int) : Int :=
  (x + 2147483648) % 4294967296 - 2147483648

/-- The test of the `UDEL` case of `saveundo`.  The sum of offset and count is
the exact sum: it is only compared, and for the offsets and counts that the
editor stores (from `NOLINE` on and from 0 on) the wrapped sum gives the same
result (`merge_test_exact`). -/
def canMerge (prev : Option UNDO) (line offset : Int) : Bool :=
  match prev with
  | none => false
  | some p => decide (ukind p = .UDEL ∧ p.l = line ∧ p.o + p.n = offset)

/-- The end of `saveundo` after the `switch`. -/
def saveDone (w : World) : Option (Int × World) :=
  some (TRUE, { w with startl := NOLINE })

/-- Save a single undo record. -/
def saveundo (kind : UKIND) (pos : Option POS) (ap : List VaArg) (w : World) :
    Option (Int × World) :=
  if w.undoing then some (TRUE, w) else
  let line := (undoPos w pos).1
  let offset := (undoPos w pos).2
  match kind with
  | .UMOVE =>
    match w.b_undo with
    | none => none
    | some st =>
      match newundo w st .UMOVE line offset with
      | none => none
      | some st1 => saveDone { w with b_undo := some st1 }
  | .UCH =>
    match w.b_undo with
    | none => none
    | some st =>
      match newundo w st .UCH line offset with
      | none => none
      | some st1 =>
        match va_arg_int ap with
        | none => none
        | some (n, ap1) =>
          match va_arg_int ap1 with
          | none => none
          | some (c, _) =>
            saveDone { w with
              b_undo := some (setUp (fun up => { up with n := n, c := toUchar c }) st1) }
  | .USTR =>
    match va_arg_int ap with
    | none => none
    | some (n, ap1) =>
      match va_arg_ptr ap1 with
      | none => none
      | some (s, _) =>
        match w.b_undo with
        | none => none
        | some st =>
          if n = 1 then
            match newundo w st .UCH line offset with
            | none => none
            | some st1 =>
              match s with
              | [] => none
              | s0 :: _ =>
                saveDone { w with
                  b_undo := some (setUp (fun up => { up with n := 1, c := s0 }) st1) }
          else
            match newundo w st .USTR line offset with
            | none => none
            | some st1 =>
              if w.ed.heap_ok = false then
                some (FALSE, mlwrite .outOfMemory { w with b_undo := some st1 })
              else if n < 0 ∨ (s.length : Int) < n then none
              else
                saveDone { w with
                  b_undo := some
                    (setUp (fun up => { up with s := some (s.take n.toNat), n := n }) st1) }
  | .UDEL =>
    match va_arg_int ap with
    | none => none
    | some (n, _) =>
      match w.b_undo with
      | none => none
      | some st =>
        if canMerge (lastundo st) line offset then
          saveDone { w with
            b_undo := some (setUp (fun prev => { prev with n := wrapInt (prev.n + n) }) st) }
        else
          match newundo w st .UDEL line offset with
          | none => none
          | some st1 =>
            saveDone { w with b_undo := some (setUp (fun up => { up with n := n }) st1) }
  | k => saveDone (mlwrite (.unimplemented k) w)

/-- A text primitive of the editor (`gotoline`, `linsert`, `insert_newline`,
`ldelete`), which is not part of `undo.c`: it returns a status, reads and
changes the editor state, and may call `saveundo` to record its own edit. -/
inductive Prim where
  | ret (status : Int)
  | edit (f : Editor → Editor) (k : Prim)
  | look (k : Editor → Prim)
  | save (kind : UKIND) (pos : Option POS) (ap : List VaArg) (k : Int → Prim)

/-- What `undo.c` uses from the other files of the editor: the flag bits
`BFCHG`, `WFMOVE` and `WFMODE` and the text primitives. -/
structure Env where
  BFCHG : Nat
  WFMOVE : Nat
  WFMODE : Nat
  gotoline : Int → Int → Prim
  insert_newline : Int → Int → Prim
  linsert : Int → uchar → Prim
  ldelete : Int → Int → Prim

/-- Execute a call of a text primitive. -/
def runPrim : Prim → World → Option (Int × World)
  | .ret status, w => some (status, w)
  | .edit f k, w => runPrim k { w with ed := f w.ed }
  | .look k, w => runPrim (k w.ed) w
  | .save kind pos ap k, w =>
    match saveundo kind pos ap w with
    | none => none
    | some (r, w1) => runPrim (k r) w1

/-- The character `'\n'`. -/
abbrev newline : uchar := 10

/-- The second half of `undostep`: the `switch` on the kind of the record, run
when the status so far is `TRUE`. -/
def undoKind (env : Env) (up : UNDO) (w : World) : Option (Int × World) :=
  match ukind up with
  | .UMOVE => some (TRUE, w)
  | .UCH =>
    if up.c = newline then runPrim (env.insert_newline FALSE up.n) w
    else runPrim (env.linsert up.n up.c) w
  | .USTR => some (TRUE, w)
  | .UDEL => runPrim (env.ldelete up.n FALSE) w
  | _ => some (FALSE, mlwrite (.unknownKind up.kind) w)

/-- Undo a single step in a possibly larger sequence of undo records. -/
def undostep (env : Env) (up : UNDO) (w : World) : Option (Int × World) :=
  let moved : Option (Int × World) :=
    if up.l ≠ NOLINE then
      match runPrim (env.gotoline TRUE (up.l + 1)) w with
      | none => none
      | some (status, w1) =>
        some (status,
          { w1 with ed := { w1.ed with w_doto := up.o, w_flag := w1.ed.w_flag ||| env.WFMOVE } })
    else some (TRUE, w)
  match moved with
  | none => none
  | some (status, w1) => if status = TRUE then undoKind env up w1 else some (status, w1)

/-- The inner `while` loop of `undo`: move `start` down while it is above the
first record and its record has no line number. -/
def scanStart (undos : List UNDO) : Nat → Nat
  | 0 => 0
  | start + 1 =>
    match undos[start + 1]? with
    | none => start + 1
    | some up => if up.l = NOLINE then scanStart undos start else start + 1

/-- The `for` loop of `undo`: play the given records in forward order, keeping
the status of the last step that did not return `TRUE`. -/
def playSteps {σ : Type} (step : UNDO → σ → Option (Int × σ)) :
    List UNDO → Int → σ → Option (Int × σ)
  | [], status, w => some (status, w)
  | up :: rest, status, w =>
    match step up w with
    | none => none
    | some (s, w1) => playSteps step rest (if s ≠ TRUE then s else status) w1

/-- The outer `while` loop of `undo`, entered with `start = end - 1`: `stop` is the
index `end`, and the loop runs while `start >= g->undos`, i.e. while `stop > 0`.
The first argument bounds the number of iterations. -/
def replayLoop {σ : Type} (step : UNDO → σ → Option (Int × σ)) (undos : List UNDO) :
    Nat → Nat → Int → σ → Option (Int × σ)
  | _, 0, status, w => some (status, w)
  | 0, _ + 1, _, _ => none
  | fuel + 1, stop + 1, status, w =>
    let start := scanStart undos stop
    match playSteps step ((undos.drop start).take (stop + 1 - start)) status w with
    | none => none
    | some (status1, w1) => replayLoop step undos fuel start status1 w1

/-- The replay of a group: both loops of `undo` from `end = &g->undos[g->next]`. -/
def replay {σ : Type} (step : UNDO → σ → Option (Int × σ)) (undos : List UNDO)
    (status : Int) (w : σ) : Option (Int × σ) :=
  replayLoop step undos undos.length undos.length status w

/-- The statement `curbp->b_flag &= ~BFCHG` on a non-negative flag word. -/
def clearBits (x m : Nat) : Nat :=
  x ^^^ (x &&& m)

/-- The end of `undo` for the group `g`: set the buffer change flag, pop the
group from the list and free it. -/
def undoFinish (env : Env) (g : UNDOGROUP) (status : Int) (w : World) :
    Option (Int × World) :=
  match w.b_undo with
  | none => none
  | some st =>
    some (status,
      { w with
        ed := { w.ed with
          b_flag := if g.b_flag &&& env.BFCHG ≠ 0 then w.ed.b_flag ||| env.BFCHG
            else clearBits w.ed.b_flag env.BFCHG
          w_flag := w.ed.w_flag ||| env.WFMODE }
        b_undo := some
          { groups := freegroup (st.groups.length - 1) st.groups, ngroups := st.ngroups - 1 }
        undoing := false })

/-- Undo the topmost undo group on the undo stack.  The records are those of the
group found on entry: `undoing` is set during the replay, so no `saveundo` call
made by a primitive can change a group (`stepStatuses_suppressed`). -/
def undo (env : Env) (_f _n : Int) (w : World) : Option (Int × World) :=
  let w0 : World := { w with undoing := true }
  match w0.b_undo with
  | none => none
  | some st =>
    match st.groups.getLast? with
    | none => some (FALSE, { mlwrite .stackEmpty w0 with undoing := false })
    | some g =>
      match replay (undostep env) g.undos TRUE w0 with
      | none => none
      | some (status, w1) => undoFinish env g status w1

/-- The split of the records of a group into subsequences, in the words of the
specification: the first subsequence starts at the first record, and a new
subsequence starts at every later record that carries a set position. -/
def subsequences : List UNDO → List (List UNDO)
  | [] => []
  | [r] => [[r]]
  | r :: r1 :: rs =>
    if r1.l ≠ NOLINE then [r] :: subsequences (r1 :: rs)
    else
      match subsequences (r1 :: rs) with
      | [] => [[r]]
      | sub :: subs => (r :: sub) :: subs

/-- The replay order of the specification: the subsequences from last to first,
the records inside each subsequence from first to last. -/
def replayOrder (undos : List UNDO) : List UNDO :=
  (subsequences undos).reverse.flatten

/-- The statuses returned by the steps when the given records are played in
order, with the final state. -/
def stepStatuses {σ : Type} (step : UNDO → σ → Option (Int × σ)) :
    List UNDO → σ → Option (List Int × σ)
  | [], w => some ([], w)
  | up :: rest, w =>
    match step up w with
    | none => none
    | some (s, w1) =>
      match stepStatuses step rest w1 with
      | none => none
      | some (ss, w2) => some (s :: ss, w2)

/-- A step that only notes the record it is given. -/
def noteStep (up : UNDO) (seen : List UNDO) : Option (Int × List UNDO) :=
  some (TRUE, seen ++ [up])

/-- A call of `saveundo`: the kind, the position and the variadic arguments. -/
structure SaveCall where
  kind : UKIND
  pos : Option POS
  ap : List VaArg
  deriving DecidableEq, Repr

/-- A sequence of `saveundo` calls made one after the other. -/
def saveAll : List SaveCall → World → Option World
  | [], w => some w
  | c :: rest, w =>
    match saveundo c.kind c.pos c.ap w with
    | none => none
    | some (_, w1) => saveAll rest w1

/-- A record is not an InsertString record that holds a string of length 1. -/
def RecOk (u : UNDO) : Prop :=
  ukind u = .USTR → u.s ≠ none → u.n ≠ 1

/-- No record of the groups is an InsertString record with a string of length 1. -/
def GroupsOk (groups : List UNDOGROUP) : Prop :=
  ∀ g ∈ groups, ∀ u ∈ g.undos, RecOk u

/-- An editor state used in the examples: a buffer of two lines with the dot at
the start of the first one. -/
def sampleEditor : Editor :=
  { b_flag := 0, b_linep := 0, lines := [⟨1, [97, 98, 99]⟩, ⟨2, []⟩],
    w_dotp := 1, w_doto := 0, w_flag := 0, heap_ok := true }

/-- A state used in the examples: no undo stack has been created yet. -/
def sampleWorld : World :=
  { ed := sampleEditor, startl := NOLINE, starto := 0, undoing := false,
    b_flag := 0, b_undo := none, mline := [] }

/-- Text primitives used in the examples: `gotoline` fails outside the buffer,
the insertions and the deletion set the changed bit and record themselves. -/
def sampleEnv : Env :=
  { BFCHG := 2, WFMOVE := 2, WFMODE := 16
    gotoline := fun _ n =>
      .look fun e =>
        if 1 ≤ n ∧ n ≤ e.lines.length then
          .edit (fun e => { e with w_dotp := n.toNat, w_doto := 0 }) (.ret TRUE)
        else .ret FALSE
    insert_newline := fun _ n =>
      .edit (fun e => { e with b_flag := e.b_flag ||| 2 })
        (.save .UDEL none [.int n] fun _ => .ret TRUE)
    linsert := fun n _ =>
      .edit (fun e => { e with b_flag := e.b_flag ||| 2 })
        (.save .UDEL none [.int n] fun _ => .ret TRUE)
    ldelete := fun n _ =>
      .edit (fun e => { e with b_flag := e.b_flag ||| 2 })
        (.save .UCH none [.int n, .int 120] fun r => .ret r) }

/-- The creation of one group: the state at the first `saveundo` call after a
`startsaveundo` and the arguments that the call passes to `newundo`. -/
structure Push where
  w : World
  kind : UKIND
  line : Int
  offset : Int

/-- The group that a push creates: it holds the new record and the copy of the
buffer flags made by `startsaveundo`. -/
def pushedGroup (p : Push) : UNDOGROUP :=
  ⟨[freshUndo p.kind p.line p.offset], p.w.b_flag⟩

/-- Several groups created one after the other through `newundo`. -/
def pushAll : List Push → UNDOSTACK → Option UNDOSTACK
  | [], st => some st
  | p :: rest, st =>
    match newundo p.w st p.kind p.line p.offset with
    | none => none
    | some st1 => pushAll rest st1

/-- The state `w1` differs from `w` at most in the editor and the message line:
the variables of the recorder and the undo stack are the same. -/
def SameRecorder (w w1 : World) : Prop :=
  w1.startl = w.startl ∧ w1.starto = w.starto ∧ w1.undoing = w.undoing ∧
    w1.b_flag = w.b_flag ∧ w1.b_undo = w.b_undo

/-- The status that `undo` keeps over the statuses of its steps: the assignment
`if (s != TRUE) status = s` for each step in turn. -/
def keepStatus (status : Int) (ss : List Int) : Int :=
  ss.foldl (fun st s => if s ≠ TRUE then s else st) status

/-- One step of a command between `startsaveundo` and `undo`: the command changes
the editor state, or it calls `saveundo`. -/
inductive CmdStep where
  | edit (e : Editor)
  | save (c : SaveCall)
  deriving DecidableEq, Repr

/-- Run the steps of a command. -/
def runCmd : List CmdStep → World → Option World
  | [], w => some w
  | .edit e :: rest, w => runCmd rest { w with ed := e }
  | .save c :: rest, w =>
    match saveundo c.kind c.pos c.ap w with
    | none => none
    | some (_, w1) => runCmd rest w1

/-- A `saveundo` call of a known kind whose variadic arguments are those that
the kind takes; for a string the pointer holds at least `n` bytes. -/
def ArgsOk (c : SaveCall) : Prop :=
  match c.kind, c.ap with
  | .UMOVE, _ => True
  | .UCH, .int _ :: .int _ :: _ => True
  | .USTR, .int n :: .bytes s :: _ => 0 ≤ n ∧ n ≤ (s.length : Int)
  | .UDEL, .int _ :: _ => True
  | _, _ => False

/-- The call is a Delete that `saveundo` merges into the last record of the most
recent group. -/
def continuesLast (w : World) (c : SaveCall) : Bool :=
  match c.kind, w.b_undo with
  | .UDEL, some st => canMerge (lastundo st) (undoPos w c.pos).1 (undoPos w c.pos).2
  | _, _ => false

/-- The modified flag of the buffer: the test `b_flag & BFCHG`. -/
def modified (env : Env) (e : Editor) : Bool :=
  decide (e.b_flag &&& env.BFCHG ≠ 0)

/-- The most recent group of the stack has the flag copy `F`. -/
def LastFlag (F : Nat) (st : UNDOSTACK) : Prop :=
  ∃ gs g, st.groups = gs ++ [g] ∧ g.b_flag = F

/-- The state after a `saveundo` call of the current command: recording is not
suppressed, the flag copy of `startsaveundo` is `F`, and the stack is not empty,
counts its groups, and its most recent group has the flag copy `F`. -/
def InCommand (F : Nat) (w : World) : Prop :=
  w.undoing = false ∧ w.b_flag = F ∧
    ∃ gs us, w.b_undo = some ⟨gs ++ [⟨us, F⟩], ((gs.length + 1 : Nat) : Int)⟩

/-- A state used in the examples: an earlier command has inserted three
characters at the start of the first line; its group holds the Delete record
for them and the flag copy of the then unmodified buffer, the buffer is now
modified and the dot is behind the inserted text. -/
def typedWorld : World :=
  { ed := { sampleEditor with b_flag := 2, w_doto := 3 }
    startl := NOLINE, starto := 0, undoing := false, b_flag := 0
    b_undo := some ⟨[⟨[⟨.UDEL, 0, 0, 3, 0, none⟩], 0⟩], 1⟩
    mline := [] }

/-- The record that a `saveundo` call of a known kind appends when it appends
one: the kind, the line number and offset of `undoPos`, and the payload written
after `newundo` (a string of length 1 is stored as a character; when the
allocation of a longer string fails nothing is written after `newundo`). -/
def recordOf (w : World) (c : SaveCall) : UNDO :=
  match c.kind, c.ap with
  | .UCH, .int n :: .int ch :: _ =>
    { freshUndo .UCH (undoPos w c.pos).1 (undoPos w c.pos).2 with n := n, c := toUchar ch }
  | .USTR, .int n :: .bytes s :: _ =>
    if n = 1 then
      { freshUndo .UCH (undoPos w c.pos).1 (undoPos w c.pos).2 with n := 1, c := s.headD 0 }
    else if w.ed.heap_ok = false then
      freshUndo .USTR (undoPos w c.pos).1 (undoPos w c.pos).2
    else
      { freshUndo .USTR (undoPos w c.pos).1 (undoPos w c.pos).2 with
        s := some (s.take n.toNat), n := n }
  | .UDEL, .int n :: _ =>
    { freshUndo .UDEL (undoPos w c.pos).1 (undoPos w c.pos).2 with n := n }
  | k, _ => freshUndo k (undoPos w c.pos).1 (undoPos w c.pos).2

/-- A state used in the examples: as `sampleWorld`, but the next allocation of a
string fails. -/
def oomWorld : World :=
  { sampleWorld with ed := { sampleEditor with heap_ok := false } }

/-- A call of the interface of `undo.c`, or a change of the editor state made by
the editor between two calls. -/
inductive Op where
  | start
  | record (c : SaveCall)
  | disable
  | enable
  | undo (f n : Int)
  | edit (e : Editor)

/-- Run one call; `none` when its behaviour is undefined. -/
def runOp (env : Env) : Op → World → Option World
  | .start, w => some (startsaveundo w)
  | .record c, w =>
    match saveundo c.kind c.pos c.ap w with
    | none => none
    | some (_, w1) => some w1
  | .disable, w => some (disablesaveundo w)
  | .enable, w => some (enablesaveundo w)
  | .undo f n, w =>
    match undo env f n w with
    | none => none
    | some (_, w1) => some w1
  | .edit e, w => some { w with ed := e }

/-- Run a sequence of calls. -/
def runOps (env : Env) : List Op → World → Option World
  | [], w => some w
  | op :: rest, w =>
    match runOp env op w with
    | none => none
    | some w1 => runOps env rest w1

/-- The counter of the stack is the number of its groups, which is at most 100,
and every group holds at least one record. -/
def GoodStack (st : UNDOSTACK) : Prop :=
  st.ngroups = st.groups.length ∧ st.groups.length ≤ 100 ∧ ∀ g ∈ st.groups, g.undos ≠ []

/-- A state used in the examples: as `sampleWorld`, with a new, empty undo
stack. -/
def newWorld : World :=
  { sampleWorld with b_undo := some newstack }

/-- The states before each of the given steps and after the last one. -/
def stepWorlds (step : UNDO → World → Option (Int × World)) :
    List UNDO → World → Option (List World)
  | [], w => some [w]
  | up :: rest, w =>
    match step up w with
    | none => none
    | some (_, w1) =>
      match stepWorlds step rest w1 with
      | none => none
      | some ws => some (w :: ws)

/-- The states in which a primitive calls `saveundo` during its execution. -/
def saveStates : Prim → World → List World
  | .ret _, _ => []
  | .edit f k, w => saveStates k { w with ed := f w.ed }
  | .look k, w => saveStates (k w.ed) w
  | .save kind pos ap k, w =>
    w :: (match saveundo kind pos ap w with
      | none => []
      | some (r, w1) => saveStates (k r) w1)

/-- The loop of `lineno` on the links of the lines themselves: `clp` starts at
`lforw (curbp->b_linep)` and follows `lforw`.  The first argument bounds the
number of iterations; `none` means that the bound was reached. -/
def linenoWalk (lforw : Nat → Nat) (hdr lp : Nat) : Nat → Nat → Int → Option Int
  | 0, _, _ => none
  | fuel + 1, clp, nline =>
    if clp = hdr ∨ clp = lp then some nline
    else linenoWalk lforw hdr lp fuel (lforw clp) (nline + 1)

/-- The lines met from `clp` on by following `lforw` until the header line `hdr`
is reached are `ls`. -/
def RingFrom (lforw : Nat → Nat) (hdr : Nat) : Nat → List Nat → Prop
  | clp, [] => clp = hdr
  | clp, l :: ls => clp = l ∧ l ≠ hdr ∧ RingFrom lforw hdr (lforw l) ls

/-- The kinds that `saveundo` handles in a `case` of its own. -/
def knownKind : UKIND → Bool
  | .UMOVE => true
  | .UCH => true
  | .USTR => true
  | .UDEL => true
  | _ => false

/-- A sequence of calls in which every `saveundo` call of a known kind has the
arguments of its kind and follows a `startsaveundo` call, with neither an `undo`
call nor a `saveundo` call of an unknown kind between the two.  The first
argument tells whether such a `startsaveundo` call has been made. -/
def Bracketed : Bool → List Op → Prop
  | _, [] => True
  | _, .start :: rest => Bracketed true rest
  | _, .undo _ _ :: rest => Bracketed false rest
  | opened, .record c :: rest =>
    if knownKind c.kind = true then opened = true ∧ ArgsOk c ∧ Bracketed opened rest
    else Bracketed false rest
  | opened, .disable :: rest => Bracketed opened rest
  | opened, .enable :: rest => Bracketed opened rest
  | opened, .edit _ :: rest => Bracketed opened rest

/-! ## Properties of the embedding -/

theorem subsequences_ne_nil (r : UNDO) (rs : List UNDO) : subsequences (r :: rs) ≠ [] := by
  cases rs with
  | nil => simp [subsequences]
  | cons r1 rs =>
    simp only [subsequences]
    split
    · simp
    · split <;> simp

theorem subsequences_single (r : UNDO) (rs : List UNDO) (h : ∀ u ∈ rs, u.l = NOLINE) :
    subsequences (r :: rs) = [r :: rs] := by
  induction rs generalizing r with
  | nil => simp [subsequences]
  | cons r1 rs ih =>
    have h1 : r1.l = NOLINE := h r1 (by simp)
    have h2 : ∀ u ∈ rs, u.l = NOLINE := fun u hu => h u (by simp [hu])
    simp only [subsequences, h1, ne_eq, not_true_eq_false, if_false, ih r1 h2]

theorem subsequences_append (a : List UNDO) (r : UNDO) (rs : List UNDO)
    (hrs : ∀ u ∈ rs, u.l = NOLINE) (hr : a = [] ∨ r.l ≠ NOLINE) :
    subsequences (a ++ r :: rs) = subsequences a ++ [r :: rs] := by
  induction a with
  | nil => simpa [subsequences] using subsequences_single r rs hrs
  | cons x a ih =>
    have hr1 : r.l ≠ NOLINE := by
      rcases hr with h | h
      · simp at h
      · exact h
    cases a with
    | nil =>
      simp only [List.cons_append, List.nil_append, subsequences, hr1, ne_eq, not_false_eq_true,
        if_true, subsequences_single r rs hrs]
    | cons y a =>
      have ih1 := ih (Or.inr hr1)
      simp only [List.cons_append] at ih1 ⊢
      simp only [subsequences, ih1]
      split
      · simp
      · have hne := subsequences_ne_nil y a
        cases hs : subsequences (y :: a) with
        | nil => exact absurd hs hne
        | cons sub subs => simp

theorem scanStart_le (undos : List UNDO) (k : Nat) : scanStart undos k ≤ k := by
  induction k with
  | zero => simp [scanStart]
  | succ k ih =>
    simp only [scanStart]
    split
    · exact Nat.le_refl _
    · split
      · omega
      · exact Nat.le_refl _

theorem scanStart_above (undos : List UNDO) (k j : Nat) (h1 : scanStart undos k < j) (h2 : j ≤ k) :
    ∃ u, undos[j]? = some u ∧ u.l = NOLINE := by
  induction k with
  | zero => omega
  | succ k ih =>
    simp only [scanStart] at h1
    split at h1
    · omega
    · next up hup =>
      split at h1
      · next hl =>
        by_cases hj : j = k + 1
        · subst hj; exact ⟨up, hup, hl⟩
        · exact ih h1 (by omega)
      · omega

theorem scanStart_at (undos : List UNDO) (k : Nat) (h : k < undos.length) :
    scanStart undos k = 0 ∨ ∃ u, undos[scanStart undos k]? = some u ∧ u.l ≠ NOLINE := by
  induction k with
  | zero => simp [scanStart]
  | succ k ih =>
    simp only [scanStart]
    split
    · next hnone =>
      rw [List.getElem?_eq_none_iff] at hnone
      omega
    · next up hup =>
      split
      · exact ih (by omega)
      · next hl => exact Or.inr ⟨up, hup, hl⟩

theorem playSteps_append {σ : Type} (step : UNDO → σ → Option (Int × σ)) (a b : List UNDO)
    (status : Int) (w : σ) :
    playSteps step (a ++ b) status w =
      match playSteps step a status w with
      | none => none
      | some (s, w1) => playSteps step b s w1 := by
  induction a generalizing status w with
  | nil => simp [playSteps]
  | cons x a ih =>
    simp only [List.cons_append, playSteps]
    cases step x w with
    | none => rfl
    | some r => simp [ih]


theorem slice_subsequences (undos : List UNDO) (k : Nat) (h : k < undos.length) :
    subsequences (undos.take (k + 1)) =
      subsequences (undos.take (scanStart undos k)) ++
        [(undos.drop (scanStart undos k)).take (k + 1 - scanStart undos k)] := by
  have hle := scanStart_le undos k
  have hsplit : undos.take (k + 1) =
      undos.take (scanStart undos k) ++
        (undos.drop (scanStart undos k)).take (k + 1 - scanStart undos k) := by
    rw [← List.take_add]
    congr 1
    omega
  cases hB : (undos.drop (scanStart undos k)).take (k + 1 - scanStart undos k) with
  | nil =>
    have hlen := congrArg List.length hB
    simp only [List.length_take, List.length_drop, List.length_nil] at hlen
    omega
  | cons r rs =>
    rw [hsplit, hB]
    apply subsequences_append
    · intro u hu
      rw [List.mem_iff_getElem?] at hu
      obtain ⟨i, hi⟩ := hu
      have h1 : ((undos.drop (scanStart undos k)).take (k + 1 - scanStart undos k))[i + 1]? =
          some u := by
        rw [hB]; simpa using hi
      rw [List.getElem?_take] at h1
      split at h1
      · next hlt =>
        rw [List.getElem?_drop] at h1
        obtain ⟨v, hv, hvl⟩ := scanStart_above undos k (scanStart undos k + (i + 1))
          (by omega) (by omega)
        rw [hv] at h1
        cases h1
        exact hvl
      · cases h1
    · rcases scanStart_at undos k h with h0 | ⟨v, hv, hvl⟩
      · left
        rw [h0]; rfl
      · right
        have h1 : ((undos.drop (scanStart undos k)).take (k + 1 - scanStart undos k))[0]? =
            some r := by
          rw [hB]; simp
        rw [List.getElem?_take] at h1
        split at h1
        · rw [List.getElem?_drop] at h1
          simp only [Nat.add_zero] at h1
          rw [hv] at h1
          cases h1
          exact hvl
        · cases h1

theorem replayLoop_eq {σ : Type} (step : UNDO → σ → Option (Int × σ)) (undos : List UNDO)
    (fuel stop : Nat) (hfuel : stop ≤ fuel) (hstop : stop ≤ undos.length) (status : Int) (w : σ) :
    replayLoop step undos fuel stop status w =
      playSteps step (replayOrder (undos.take stop)) status w := by
  induction fuel generalizing stop status w with
  | zero =>
    have : stop = 0 := by omega
    subst this
    simp [replayLoop, replayOrder, subsequences, playSteps]
  | succ fuel ih =>
    cases stop with
    | zero => simp [replayLoop, replayOrder, subsequences, playSteps]
    | succ k =>
      have hle := scanStart_le undos k
      simp only [replayLoop]
      have hord : replayOrder (undos.take (k + 1)) =
          (undos.drop (scanStart undos k)).take (k + 1 - scanStart undos k) ++
            replayOrder (undos.take (scanStart undos k)) := by
        simp [replayOrder, slice_subsequences undos k (by omega)]
      rw [hord, playSteps_append]
      cases playSteps step ((undos.drop (scanStart undos k)).take (k + 1 - scanStart undos k))
          status w with
      | none => rfl
      | some r =>
        obtain ⟨s, w1⟩ := r
        exact ih (scanStart undos k) (by omega) (by omega) s w1

theorem replay_eq {σ : Type} (step : UNDO → σ → Option (Int × σ)) (undos : List UNDO)
    (status : Int) (w : σ) :
    replay step undos status w = playSteps step (replayOrder undos) status w := by
  unfold replay
  rw [replayLoop_eq step undos _ _ (Nat.le_refl _) (Nat.le_refl _), List.take_length]

theorem subsequences_flatten (undos : List UNDO) : (subsequences undos).flatten = undos := by
  induction undos with
  | nil => simp [subsequences]
  | cons r rs ih =>
    cases rs with
    | nil => simp [subsequences]
    | cons r1 rs =>
      simp only [subsequences]
      split
      · simp [ih]
      · cases hs : subsequences (r1 :: rs) with
        | nil => exact absurd hs (subsequences_ne_nil r1 rs)
        | cons sub subs =>
          rw [hs] at ih
          simpa using ih

theorem replayOrder_perm (undos : List UNDO) : (replayOrder undos).Perm undos := by
  have h := (List.reverse_perm (subsequences undos)).flatten
  rw [subsequences_flatten] at h
  exact h

/-- Every subsequence is a record followed by records without a position. -/
theorem subsequences_shape (undos : List UNDO) :
    ∀ sub ∈ subsequences undos, ∃ r rest, sub = r :: rest ∧ ∀ u ∈ rest, u.l = NOLINE := by
  induction undos with
  | nil => simp [subsequences]
  | cons r rs ih =>
    cases rs with
    | nil =>
      intro sub hsub
      simp [subsequences] at hsub
      exact ⟨r, [], hsub, by simp⟩
    | cons r1 rs =>
      intro sub hsub
      simp only [subsequences] at hsub
      split at hsub
      · rcases List.mem_cons.1 hsub with h | h
        · exact ⟨r, [], h, by simp⟩
        · exact ih sub h
      · next hl =>
        have hl1 : r1.l = NOLINE := by simpa using hl
        cases hs : subsequences (r1 :: rs) with
        | nil => exact absurd hs (subsequences_ne_nil r1 rs)
        | cons s1 subs =>
          rw [hs] at hsub ih
          simp only at hsub
          rcases List.mem_cons.1 hsub with h | h
          · obtain ⟨r2, rest, hr2, hrest⟩ := ih s1 (by simp)
            have hfl := subsequences_flatten (r1 :: rs)
            rw [hs, hr2] at hfl
            simp at hfl
            have : r2 = r1 := hfl.1
            subst this
            refine ⟨r, r2 :: rest, by rw [h, hr2], ?_⟩
            intro u hu
            rcases List.mem_cons.1 hu with h3 | h3
            · rw [h3]; exact hl1
            · exact hrest u h3
          · exact ih sub (by simp [h])

/-- Every subsequence but the first starts with a record that carries a position. -/
theorem subsequences_tail_heads (undos : List UNDO) :
    ∀ sub ∈ (subsequences undos).tail, ∃ r rest, sub = r :: rest ∧ r.l ≠ NOLINE := by
  induction undos with
  | nil => simp [subsequences]
  | cons r rs ih =>
    cases rs with
    | nil => simp [subsequences]
    | cons r1 rs =>
      intro sub hsub
      simp only [subsequences] at hsub
      split at hsub
      · next hl =>
        simp only [List.tail_cons] at hsub
        cases hs : subsequences (r1 :: rs) with
        | nil => exact absurd hs (subsequences_ne_nil r1 rs)
        | cons s1 subs =>
          rw [hs] at hsub ih
          rcases List.mem_cons.1 hsub with h | h
          · obtain ⟨r2, rest, hr2, _⟩ := subsequences_shape (r1 :: rs) s1 (by simp [hs])
            have hfl := subsequences_flatten (r1 :: rs)
            rw [hs, hr2] at hfl
            simp at hfl
            have : r2 = r1 := hfl.1
            subst this
            exact ⟨r2, rest, by rw [h, hr2], hl⟩
          · exact ih sub (by simpa using h)
      · cases hs : subsequences (r1 :: rs) with
        | nil => exact absurd hs (subsequences_ne_nil r1 rs)
        | cons s1 subs =>
          rw [hs] at hsub ih
          simp only [List.tail_cons] at hsub ih
          exact ih sub hsub

theorem noteStep_play (l seen : List UNDO) (status : Int) :
    playSteps noteStep l status seen = some (status, seen ++ l) := by
  induction l generalizing seen with
  | nil => simp [playSteps]
  | cons x l ih => simp [playSteps, noteStep, ih]

theorem undo_eq_playSteps (env : Env) (f n : Int) (w : World) (gs : List UNDOGROUP)
    (g : UNDOGROUP) (k : Int) :
    undo env f n { w with b_undo := some ⟨gs ++ [g], k⟩ } =
      match playSteps (undostep env) (replayOrder g.undos) TRUE
          { w with b_undo := some ⟨gs ++ [g], k⟩, undoing := true } with
      | none => none
      | some (status, w1) => undoFinish env g status w1 := by
  simp only [undo, List.getLast?_concat, replay_eq]

/-- C1: the two loops of `undo` hand the records of a group to the step function
in the replay order of the specification, whatever the step function does: the
group is split into subsequences, the first starting at the first record and a
new one at every later record with a set position; the subsequences are played
from last to first, the records inside each from first to last, and every
record of the group is played exactly once.  `undo` plays the most recent group
with `undostep` in this order. -/
theorem undo_replay_order :
    (∀ (σ : Type) (step : UNDO → σ → Option (Int × σ)) (undos : List UNDO) (status : Int)
        (w : σ), replay step undos status w = playSteps step (replayOrder undos) status w) ∧
    (∀ undos : List UNDO,
      replay noteStep undos TRUE [] = some (TRUE, (subsequences undos).reverse.flatten)) ∧
    (∀ (env : Env) (f n : Int) (w : World) (gs : List UNDOGROUP) (g : UNDOGROUP) (k : Int),
      undo env f n { w with b_undo := some ⟨gs ++ [g], k⟩ } =
        match playSteps (undostep env) (replayOrder g.undos) TRUE
            { w with b_undo := some ⟨gs ++ [g], k⟩, undoing := true } with
        | none => none
        | some (status, w1) => undoFinish env g status w1) ∧
    (∀ undos : List UNDO,
      (subsequences undos).flatten = undos ∧
      (∀ sub ∈ subsequences undos, ∃ r rest, sub = r :: rest ∧ ∀ u ∈ rest, u.l = NOLINE) ∧
      (∀ sub ∈ (subsequences undos).tail, ∃ r rest, sub = r :: rest ∧ r.l ≠ NOLINE) ∧
      (replayOrder undos).Perm undos) := by
  refine ⟨fun σ step undos status w => replay_eq step undos status w, ?_, ?_, ?_⟩
  · intro undos
    rw [replay_eq, noteStep_play]
    simp [replayOrder]
  · exact undo_eq_playSteps
  · intro undos
    exact ⟨subsequences_flatten undos, subsequences_shape undos,
      subsequences_tail_heads undos, replayOrder_perm undos⟩

theorem updLast_concat {α : Type} (f : α → α) (l : List α) (a : α) :
    updLast f (l ++ [a]) = l ++ [f a] := by
  induction l with
  | nil => rfl
  | cons x l ih =>
    cases l with
    | nil => rfl
    | cons y l =>
      simp only [List.cons_append] at ih ⊢
      simp only [updLast, ih]

theorem saveundo_suppressed (kind : UKIND) (pos : Option POS) (ap : List VaArg) (w : World)
    (h : w.undoing = true) : saveundo kind pos ap w = some (TRUE, w) := by
  simp [saveundo, h]

theorem saveAll_suppressed (calls : List SaveCall) (w : World) (h : w.undoing = true) :
    saveAll calls w = some w := by
  induction calls with
  | nil => rfl
  | cons c rest ih => simp [saveAll, saveundo_suppressed c.kind c.pos c.ap w h, ih]

/-- C7: while the suppressed flag `undoing` is set, every `saveundo` call, for
every kind, position and arguments, returns `TRUE` and leaves the whole state
unchanged (no group, no record, the pending start `startl` is kept), and so does
every sequence of such calls; on an empty history the following `undo` returns
`FALSE` with the message that the undo stack is empty. -/
theorem saveundo_suppressed_noop :
    (∀ (kind : UKIND) (pos : Option POS) (ap : List VaArg) (w : World),
      saveundo kind pos ap { w with undoing := true } = some (TRUE, { w with undoing := true })) ∧
    (∀ (calls : List SaveCall) (env : Env) (f n : Int) (w : World) (k : Int),
      saveAll calls { w with undoing := true, b_undo := some ⟨[], k⟩ } =
        some { w with undoing := true, b_undo := some ⟨[], k⟩ } ∧
      undo env f n { w with undoing := true, b_undo := some ⟨[], k⟩ } =
        some (FALSE,
          { w with
            b_undo := some ⟨[], k⟩, undoing := false, mline := w.mline ++ [.stackEmpty] })) := by
  refine ⟨fun kind pos ap w => saveundo_suppressed kind pos ap _ rfl, ?_⟩
  intro calls env f n w k
  refine ⟨saveAll_suppressed calls _ rfl, ?_⟩
  simp [undo, mlwrite]

/-- C9: on a history without groups `undo` returns `FALSE` and calls no text
primitive: whatever the primitives are, the editor state (modified flag, cursor,
text) and the history with its counter `ngroups` are as before; the message
"undo stack is empty" is written and `undoing` is cleared. -/
theorem undo_empty_history (env : Env) (f n : Int) (w : World) (k : Int) :
    undo env f n { w with b_undo := some ⟨[], k⟩ } =
      some (FALSE,
        { ed := w.ed, startl := w.startl, starto := w.starto, undoing := false,
          b_flag := w.b_flag, b_undo := some ⟨[], k⟩, mline := w.mline ++ [.stackEmpty] }) := by
  simp [undo, mlwrite]

/-- C8 (the code at a string record): replaying an InsertString record does
exactly what replaying a Move record with the same fields does; the stored
bytes are not inserted and no insertion status is returned.  Without a position
the step returns `TRUE` and changes nothing. -/
theorem undostep_string_no_insert (env : Env) (l o n : Int) (c : uchar)
    (s : Option (List uchar)) (w : World) :
    undostep env ⟨.USTR, l, o, n, c, s⟩ w = undostep env ⟨.UMOVE, l, o, n, c, s⟩ w ∧
    undostep env ⟨.USTR, NOLINE, o, n, c, s⟩ w = some (TRUE, w) := by
  constructor
  · simp only [undostep, undoKind, ukind]
  · simp [undostep, undoKind, ukind]

theorem newundo_eq_some (w : World) (st : UNDOSTACK) (kind : UKIND) (line offset : Int)
    (gs : List UNDOGROUP) (g : UNDOGROUP) (h : (openGroup w st).groups = gs ++ [g]) :
    newundo w st kind line offset =
      some ⟨gs ++ [⟨g.undos ++ [freshUndo kind line offset], g.b_flag⟩],
        (openGroup w st).ngroups⟩ := by
  simp only [newundo, h, List.getLast?_concat, updLast_concat]

theorem newundo_eq_none (w : World) (st : UNDOSTACK) (kind : UKIND) (line offset : Int)
    (h : (openGroup w st).groups = []) : newundo w st kind line offset = none := by
  simp [newundo, h]

theorem setUp_concat (f : UNDO → UNDO) (gs : List UNDOGROUP) (us : List UNDO) (u : UNDO)
    (b : Nat) (k : Int) :
    setUp f ⟨gs ++ [⟨us ++ [u], b⟩], k⟩ = ⟨gs ++ [⟨us ++ [f u], b⟩], k⟩ := by
  simp only [setUp, updLast_concat]

theorem setUp_single (f : UNDO → UNDO) (gs : List UNDOGROUP) (u : UNDO) (b : Nat) (k : Int) :
    setUp f ⟨gs ++ [⟨[u], b⟩], k⟩ = ⟨gs ++ [⟨[f u], b⟩], k⟩ :=
  setUp_concat f gs [] u b k

theorem openGroup_idle (w : World) (st : UNDOSTACK) (h : w.startl = NOLINE) :
    openGroup w st = st := by
  simp [openGroup, h]

theorem openGroup_room (w : World) (st : UNDOSTACK) (h : w.startl ≠ NOLINE)
    (hn : st.ngroups < N_UNDO) :
    openGroup w st = ⟨st.groups ++ [newgroup w], st.ngroups + 1⟩ := by
  have hn1 : ¬ (100 ≤ st.ngroups) := by simpa using hn
  simp [openGroup, h, appendgroup, hn1]

theorem openGroup_full (w : World) (st : UNDOSTACK) (h : w.startl ≠ NOLINE)
    (hn : N_UNDO ≤ st.ngroups) :
    openGroup w st = ⟨(st.groups ++ [newgroup w]).tail, st.ngroups⟩ := by
  have hn1 : (100 : Int) ≤ st.ngroups := hn
  simp [openGroup, h, appendgroup, freegroup, hn1]

theorem toUchar_val (x : uchar) : toUchar (x.val : Int) = x := by
  apply Fin.ext
  simp only [toUchar]
  have := x.isLt
  omega

theorem list_nil_or_concat {α : Type} (l : List α) : l = [] ∨ ∃ init a, l = init ++ [a] := by
  rcases List.eq_nil_or_concat l with h | ⟨init, a, h⟩
  · exact Or.inl h
  · exact Or.inr ⟨init, a, by simpa using h⟩

theorem lastundo_concat (gs : List UNDOGROUP) (us : List UNDO) (u : UNDO) (b : Nat) (k : Int) :
    lastundo ⟨gs ++ [⟨us ++ [u], b⟩], k⟩ = some u := by
  simp [lastundo]

theorem newundo_shape (w : World) (st st1 : UNDOSTACK) (kind : UKIND) (line offset : Int)
    (h : newundo w st kind line offset = some st1) :
    ∃ gs g, (openGroup w st).groups = gs ++ [g] ∧
      st1 = ⟨gs ++ [⟨g.undos ++ [freshUndo kind line offset], g.b_flag⟩],
        (openGroup w st).ngroups⟩ := by
  rcases list_nil_or_concat (openGroup w st).groups with h0 | ⟨gs, g, h1⟩
  · rw [newundo_eq_none w st kind line offset h0] at h
    cases h
  · rw [newundo_eq_some w st kind line offset gs g h1] at h
    exact ⟨gs, g, h1, (Option.some.inj h).symm⟩

theorem openGroup_groupsOk (w : World) (st : UNDOSTACK) (h : GroupsOk st.groups) :
    GroupsOk (openGroup w st).groups := by
  by_cases hs : w.startl = NOLINE
  · rw [openGroup_idle w st hs]; exact h
  · have hnew : GroupsOk (st.groups ++ [newgroup w]) := by
      intro g hg u hu
      rcases List.mem_append.1 hg with hg1 | hg1
      · exact h g hg1 u hu
      · simp only [List.mem_singleton] at hg1
        subst hg1
        simp [newgroup] at hu
    by_cases hn : st.ngroups < N_UNDO
    · rw [openGroup_room w st hs hn]; exact hnew
    · rw [openGroup_full w st hs (by omega)]
      intro g hg u hu
      exact hnew g (List.mem_of_mem_tail hg) u hu

theorem setUp_groupsOk (f : UNDO → UNDO) (st : UNDOSTACK) (h : GroupsOk st.groups)
    (hf : ∀ p, lastundo st = some p → RecOk (f p)) : GroupsOk (setUp f st).groups := by
  obtain ⟨groups, k⟩ := st
  rcases list_nil_or_concat groups with h0 | ⟨gs, g, h1⟩
  · subst h0; simpa [setUp, updLast] using h
  · subst h1
    obtain ⟨undos, b⟩ := g
    rcases list_nil_or_concat undos with h2 | ⟨us, p, h3⟩
    · subst h2
      simpa [setUp, updLast_concat, updLast] using h
    · subst h3
      rw [setUp_concat]
      have hp := hf p (lastundo_concat gs us p b k)
      intro g hg u hu
      rcases List.mem_append.1 hg with hg1 | hg1
      · exact h g (List.mem_append.2 (Or.inl hg1)) u hu
      · simp only [List.mem_singleton] at hg1
        subst hg1
        rcases List.mem_append.1 hu with hu1 | hu1
        · exact h ⟨us ++ [p], b⟩ (by simp) u (List.mem_append.2 (Or.inl hu1))
        · simp only [List.mem_singleton] at hu1
          subst hu1
          exact hp

theorem newundo_groupsOk (w : World) (st st1 : UNDOSTACK) (kind : UKIND) (line offset : Int)
    (h : newundo w st kind line offset = some st1) (hok : GroupsOk st.groups) :
    GroupsOk st1.groups ∧ lastundo st1 = some (freshUndo kind line offset) := by
  obtain ⟨gs, g, hg, rfl⟩ := newundo_shape w st st1 kind line offset h
  have hopen := openGroup_groupsOk w st hok
  rw [hg] at hopen
  refine ⟨?_, lastundo_concat _ _ _ _ _⟩
  intro g1 hg1 u hu
  rcases List.mem_append.1 hg1 with h1 | h1
  · exact hopen g1 (List.mem_append.2 (Or.inl h1)) u hu
  · simp only [List.mem_singleton] at h1
    subst h1
    rcases List.mem_append.1 hu with hu1 | hu1
    · exact hopen g (by simp) u hu1
    · simp only [List.mem_singleton] at hu1
      subst hu1
      intro _ hs
      simp [freshUndo] at hs

theorem saveundo_groupsOk (kind : UKIND) (pos : Option POS) (ap : List VaArg) (w w1 : World)
    (st st1 : UNDOSTACK) (r : Int) (hst : w.b_undo = some st) (hok : GroupsOk st.groups)
    (h : saveundo kind pos ap w = some (r, w1)) (hst1 : w1.b_undo = some st1) :
    GroupsOk st1.groups := by
  unfold saveundo at h
  split at h
  · cases h
    rw [hst] at hst1
    cases hst1
    exact hok
  · simp only [hst] at h
    split at h
    · -- UMOVE
      split at h
      · cases h
      · next st2 hnew =>
        simp only [saveDone, Option.some.injEq, Prod.mk.injEq] at h
        obtain ⟨_, rfl⟩ := h
        cases hst1
        exact (newundo_groupsOk _ _ _ _ _ _ hnew hok).1
    · -- UCH
      split at h
      · cases h
      · next st2 hnew =>
        split at h
        · cases h
        · split at h
          · cases h
          · simp only [saveDone, Option.some.injEq, Prod.mk.injEq] at h
            obtain ⟨_, rfl⟩ := h
            cases hst1
            have h2 := newundo_groupsOk _ _ _ _ _ _ hnew hok
            apply setUp_groupsOk _ _ h2.1
            intro p hp
            rw [h2.2] at hp
            cases hp
            intro hk
            simp [ukind, freshUndo] at hk
    · -- USTR
      split at h
      · cases h
      · split at h
        · cases h
        · split at h
          · split at h
            · cases h
            · next st2 hnew =>
              split at h
              · cases h
              · simp only [saveDone, Option.some.injEq, Prod.mk.injEq] at h
                obtain ⟨_, rfl⟩ := h
                cases hst1
                have h2 := newundo_groupsOk _ _ _ _ _ _ hnew hok
                apply setUp_groupsOk _ _ h2.1
                intro p hp
                rw [h2.2] at hp
                cases hp
                intro hk
                simp [ukind, freshUndo] at hk
          · next hn1 =>
            split at h
            · cases h
            · next st2 hnew =>
              have h2 := newundo_groupsOk _ _ _ _ _ _ hnew hok
              split at h
              · simp only [mlwrite, Option.some.injEq, Prod.mk.injEq] at h
                obtain ⟨_, rfl⟩ := h
                cases hst1
                exact h2.1
              · split at h
                · cases h
                · simp only [saveDone, Option.some.injEq, Prod.mk.injEq] at h
                  obtain ⟨_, rfl⟩ := h
                  cases hst1
                  apply setUp_groupsOk _ _ h2.1
                  intro p hp
                  rw [h2.2] at hp
                  cases hp
                  intro _ _
                  exact hn1
    · -- UDEL
      split at h
      · cases h
      · split at h
        · next hm =>
          simp only [saveDone, Option.some.injEq, Prod.mk.injEq] at h
          obtain ⟨_, rfl⟩ := h
          cases hst1
          apply setUp_groupsOk _ _ hok
          intro p hp
          rw [hp] at hm
          simp only [canMerge, decide_eq_true_eq] at hm
          intro hk
          have hk2 : ukind p = .USTR := by simpa [ukind] using hk
          rw [hm.1] at hk2
          cases hk2
        · split at h
          · cases h
          · next st2 hnew =>
            simp only [saveDone, Option.some.injEq, Prod.mk.injEq] at h
            obtain ⟨_, rfl⟩ := h
            cases hst1
            have h2 := newundo_groupsOk _ _ _ _ _ _ hnew hok
            apply setUp_groupsOk _ _ h2.1
            intro p hp
            rw [h2.2] at hp
            cases hp
            intro hk
            simp [ukind, freshUndo] at hk
    · -- unknown kind
      simp only [saveDone, mlwrite, Option.some.injEq, Prod.mk.injEq] at h
      obtain ⟨_, rfl⟩ := h
      rw [hst] at hst1
      cases hst1
      exact hok

/-- C6: a `saveundo (USTR, pos, 1, s)` call with first byte `x` gives exactly the
same result (status and whole state) as `saveundo (UCH, pos, 1, x)`, in every
state and for every position argument; and no `saveundo` call ever produces an
InsertString record that holds a string of length 1: if no record of the stack
is one before the call, none is after it (there is none in a new stack). -/
theorem string_of_length_one_is_char :
    (∀ (pos : Option POS) (x : uchar) (rest : List uchar) (more more1 : List VaArg) (w : World),
      saveundo .USTR pos (.int 1 :: .bytes (x :: rest) :: more) w =
        saveundo .UCH pos (.int 1 :: .int (x.val : Int) :: more1) w) ∧
    GroupsOk newstack.groups ∧
    (∀ (kind : UKIND) (pos : Option POS) (ap : List VaArg) (w w1 : World)
        (st st1 : UNDOSTACK) (r : Int),
      w.b_undo = some st → GroupsOk st.groups → saveundo kind pos ap w = some (r, w1) →
        w1.b_undo = some st1 → GroupsOk st1.groups) := by
  refine ⟨?_, ?_, ?_⟩
  · intro pos x rest more more1 w
    simp only [saveundo, va_arg_int, va_arg_ptr, toUchar_val, if_true]
  · intro g hg
    simp [newstack] at hg
  · intro kind pos ap w w1 st st1 r hst hok h hst1
    exact saveundo_groupsOk kind pos ap w w1 st st1 r hst hok h hst1

/-- The statements of `string_of_length_one_is_char` for the string "x" recorded
at offset 4 of the second line. -/
theorem string_of_length_one_is_char_witness :
    saveundo .USTR (some ⟨2, 4⟩) [.int 1, .bytes [120]] (startsaveundo sampleWorld) =
      saveundo .UCH (some ⟨2, 4⟩) [.int 1, .int 120] (startsaveundo sampleWorld) ∧
    GroupsOk [⟨[⟨.UCH, 1, 4, 1, 120, none⟩], 0⟩] :=
  ⟨string_of_length_one_is_char.1 (some ⟨2, 4⟩) 120 [] [] [] (startsaveundo sampleWorld),
    string_of_length_one_is_char.2.2 .USTR (some ⟨2, 4⟩) [.int 1, .bytes [120]]
      (startsaveundo sampleWorld)
      { startsaveundo sampleWorld with
        startl := NOLINE
        b_undo := some ⟨[⟨[⟨.UCH, 1, 4, 1, 120, none⟩], 0⟩], 1⟩ }
      newstack ⟨[⟨[⟨.UCH, 1, 4, 1, 120, none⟩], 0⟩], 1⟩ TRUE rfl
      string_of_length_one_is_char.2.1 (by decide) rfl⟩

theorem wrapInt_of_range (x : Int) (hlo : -2147483648 ≤ x) (hhi : x ≤ 2147483647) :
    wrapInt x = x := by
  unfold wrapInt
  omega

/-- The merge test of `canMerge` compares the exact sum of offset and count with
the offset of the call.  For a stored offset from `NOLINE` on, a stored count from
0 on and an offset of the call from `NOLINE` on, all values of `int`, the wrapped
sum gives the same test. -/
theorem merge_test_exact (o n off : Int) (ho : -1 ≤ o) (ho2 : o ≤ 2147483647)
    (hn : 0 ≤ n) (hn2 : n ≤ 2147483647) (hoff : -1 ≤ off) (hoff2 : off ≤ 2147483647) :
    wrapInt (o + n) = off ↔ o + n = off := by
  unfold wrapInt
  omega

theorem saveundo_merge (w : World) (pos : Option POS) (rest : List VaArg)
    (gs : List UNDOGROUP) (us : List UNDO) (prev : UNDO) (b : Nat) (k m : Int)
    (hu : w.undoing = false) (hst : w.b_undo = some ⟨gs ++ [⟨us ++ [prev], b⟩], k⟩)
    (hk : ukind prev = .UDEL) (hpos : undoPos w pos = (prev.l, prev.o + prev.n)) :
    saveundo .UDEL pos (.int m :: rest) w =
      some (TRUE,
        { w with
          b_undo := some ⟨gs ++ [⟨us ++ [{ prev with n := wrapInt (prev.n + m) }], b⟩], k⟩
          startl := NOLINE }) := by
  simp [saveundo, hu, hst, va_arg_int, lastundo_concat, canMerge, hk, hpos, setUp_concat,
    saveDone]

/-- C4, amended: when the last record of the most recent group is a Delete
record `prev` and a `saveundo (UDEL, pos, m)` call is made whose position is at
line `prev.l`, offset `prev.o + prev.n`, and the sum `prev.n + m` is a value of
`int`, the call returns `TRUE` and appends nothing: the only change to the groups
is that the count of `prev` becomes `prev.n + m`. -/
theorem delete_coalescing (w : World) (pos : Option POS) (rest : List VaArg)
    (gs : List UNDOGROUP) (us : List UNDO) (prev : UNDO) (b : Nat) (k m : Int)
    (hu : w.undoing = false) (hst : w.b_undo = some ⟨gs ++ [⟨us ++ [prev], b⟩], k⟩)
    (hk : ukind prev = .UDEL) (hpos : undoPos w pos = (prev.l, prev.o + prev.n))
    (hlo : -2147483648 ≤ prev.n + m) (hhi : prev.n + m ≤ 2147483647) :
    saveundo .UDEL pos (.int m :: rest) w =
      some (TRUE,
        { w with
          b_undo := some
            ⟨gs ++ [⟨us ++ [⟨prev.kind, prev.l, prev.o, prev.n + m, prev.c, prev.s⟩], b⟩], k⟩
          startl := NOLINE }) := by
  rw [saveundo_merge w pos rest gs us prev b k m hu hst hk hpos,
    wrapInt_of_range (prev.n + m) hlo hhi]

/-- The example of the specification: a Delete of 3 characters at offset 5
followed by a Delete of 2 characters at offset 8 of the same line. -/
theorem delete_coalescing_witness :
    saveundo .UDEL (some ⟨2, 8⟩) [.int 2]
        { sampleWorld with b_undo := some ⟨[⟨[⟨.UDEL, 1, 5, 3, 0, none⟩], 0⟩], 1⟩ } =
      some (TRUE,
        { sampleWorld with b_undo := some ⟨[⟨[⟨.UDEL, 1, 5, 5, 0, none⟩], 0⟩], 1⟩ }) :=
  delete_coalescing { sampleWorld with b_undo := some ⟨[⟨[⟨.UDEL, 1, 5, 3, 0, none⟩], 0⟩], 1⟩ }
    (some ⟨2, 8⟩) [] [] [] ⟨.UDEL, 1, 5, 3, 0, none⟩ 0 1 2 rfl rfl rfl rfl (by decide)
    (by decide)

/-- C4 fails as stated: the last record is a Delete at line 1, offset 0 with the
count `INT_MAX`; a Delete of one character at offset `INT_MAX` of that line is
merged, and the count of the record is then `INT_MIN`, not `INT_MAX + 1`. -/
theorem delete_coalescing_overflow :
    saveundo .UDEL (some ⟨2, 2147483647⟩) [.int 1]
        { sampleWorld with
          b_undo := some ⟨[⟨[⟨.UDEL, 1, 0, 2147483647, 0, none⟩], 0⟩], 1⟩ } =
      some (TRUE,
        { sampleWorld with
          b_undo := some ⟨[⟨[⟨.UDEL, 1, 0, -2147483648, 0, none⟩], 0⟩], 1⟩ }) := by
  decide

theorem canMerge_false (prev : Option UNDO) (line offset : Int)
    (h : ∀ p, prev = some p → ukind p ≠ .UDEL ∨ p.l ≠ line ∨ p.o + p.n ≠ offset) :
    canMerge prev line offset = false := by
  cases prev with
  | none => rfl
  | some p =>
    have := h p rfl
    simp only [canMerge, decide_eq_false_iff_not]
    tauto

theorem openGroup_pending (w : World) (st : UNDOSTACK) (h : w.startl ≠ NOLINE)
    (hc : st.ngroups = st.groups.length) :
    openGroup w st =
      ⟨(if N_UNDO ≤ st.ngroups then st.groups.tail else st.groups) ++ [newgroup w],
        if N_UNDO ≤ st.ngroups then st.ngroups else st.ngroups + 1⟩ := by
  by_cases hn : N_UNDO ≤ st.ngroups
  · rw [openGroup_full w st h hn, if_pos hn, if_pos hn]
    have hne : st.groups ≠ [] := by
      intro h0
      have hn1 : (100 : Int) ≤ st.ngroups := hn
      rw [h0] at hc
      simp only [List.length_nil, Nat.cast_zero] at hc
      omega
    rw [List.tail_append_of_ne_nil hne]
  · rw [openGroup_room w st h (Int.lt_of_not_ge hn), if_neg hn, if_neg hn]

/-- C5: a `saveundo (UDEL, pos, m)` call that does not continue the last record
of the most recent group (there is no last record, or it is not a Delete, or it
is on another line, or its offset plus count is not the offset of the call; the
records before the last one are not looked at) returns `TRUE` and appends exactly
one Delete record with count `m`, and leaves every existing record as it is:
the record goes to the most recent group when no start is pending, and to the
group created for the command when a start is pending. -/
theorem delete_not_coalescing :
    (∀ (w : World) (pos : Option POS) (rest : List VaArg) (gs : List UNDOGROUP)
        (g : UNDOGROUP) (k m : Int),
      w.undoing = false → w.startl = NOLINE → w.b_undo = some ⟨gs ++ [g], k⟩ →
      (∀ prev, g.undos.getLast? = some prev →
        ukind prev ≠ .UDEL ∨ prev.l ≠ (undoPos w pos).1 ∨
          prev.o + prev.n ≠ (undoPos w pos).2) →
      saveundo .UDEL pos (.int m :: rest) w =
        some (TRUE,
          { w with
            b_undo := some
              ⟨gs ++ [⟨g.undos ++ [⟨.UDEL, (undoPos w pos).1, (undoPos w pos).2, m, 0, none⟩],
                g.b_flag⟩], k⟩
            startl := NOLINE })) ∧
    (∀ (w : World) (pos : Option POS) (rest : List VaArg) (st : UNDOSTACK) (m : Int),
      w.undoing = false → w.startl ≠ NOLINE → w.b_undo = some st →
      st.ngroups = st.groups.length →
      (∀ prev, lastundo st = some prev →
        ukind prev ≠ .UDEL ∨ prev.l ≠ (undoPos w pos).1 ∨
          prev.o + prev.n ≠ (undoPos w pos).2) →
      saveundo .UDEL pos (.int m :: rest) w =
        some (TRUE,
          { w with
            b_undo := some
              ⟨(if N_UNDO ≤ st.ngroups then st.groups.tail else st.groups) ++
                [⟨[⟨.UDEL, (undoPos w pos).1, (undoPos w pos).2, m, 0, none⟩], w.b_flag⟩],
                if N_UNDO ≤ st.ngroups then st.ngroups else st.ngroups + 1⟩
            startl := NOLINE })) := by
  constructor
  · intro w pos rest gs g k m hu hs hst hno
    have hm : canMerge (lastundo ⟨gs ++ [g], k⟩) (undoPos w pos).1 (undoPos w pos).2 = false := by
      apply canMerge_false
      intro p hp
      apply hno p
      simpa [lastundo] using hp
    have hnew := newundo_eq_some w ⟨gs ++ [g], k⟩ .UDEL (undoPos w pos).1 (undoPos w pos).2 gs g
      (by rw [openGroup_idle w _ hs])
    rw [openGroup_idle w _ hs] at hnew
    simp [saveundo, hu, hst, va_arg_int, hm, hnew, setUp_concat, saveDone, freshUndo]
  · intro w pos rest st m hu hs hst hc hno
    have hm : canMerge (lastundo st) (undoPos w pos).1 (undoPos w pos).2 = false :=
      canMerge_false _ _ _ hno
    have hopen := openGroup_pending w st hs hc
    have hnew := newundo_eq_some w st .UDEL (undoPos w pos).1 (undoPos w pos).2 _ (newgroup w)
      (congrArg UNDOSTACK.groups hopen)
    rw [hopen] at hnew
    simp only [newgroup, List.nil_append] at hnew
    simp [saveundo, hu, hst, va_arg_int, hm, hnew, saveDone, freshUndo]
    exact setUp_concat _ _ [] _ _ _

/-- Both statements of `delete_not_coalescing` at concrete inputs: a Delete at
offset 9 after a Delete of 3 characters at offset 5 of the same line, without
and with a pending start. -/
theorem delete_not_coalescing_witness :
    saveundo .UDEL (some ⟨2, 9⟩) [.int 2]
        { sampleWorld with b_undo := some ⟨[⟨[⟨.UDEL, 1, 5, 3, 0, none⟩], 0⟩], 1⟩ } =
      some (TRUE,
        { sampleWorld with
          b_undo := some
            ⟨[⟨[⟨.UDEL, 1, 5, 3, 0, none⟩, ⟨.UDEL, 1, 9, 2, 0, none⟩], 0⟩], 1⟩ }) ∧
    saveundo .UDEL (some ⟨2, 9⟩) [.int 2]
        { sampleWorld with
          startl := 0, b_undo := some ⟨[⟨[⟨.UDEL, 1, 5, 3, 0, none⟩], 0⟩], 1⟩ } =
      some (TRUE,
        { sampleWorld with
          b_undo := some
            ⟨[⟨[⟨.UDEL, 1, 5, 3, 0, none⟩], 0⟩, ⟨[⟨.UDEL, 1, 9, 2, 0, none⟩], 0⟩], 2⟩ }) :=
  ⟨delete_not_coalescing.1
      { sampleWorld with b_undo := some ⟨[⟨[⟨.UDEL, 1, 5, 3, 0, none⟩], 0⟩], 1⟩ }
      (some ⟨2, 9⟩) [] [] ⟨[⟨.UDEL, 1, 5, 3, 0, none⟩], 0⟩ 1 2 rfl rfl rfl
      (by
        intro prev hp
        cases hp
        right; right
        decide),
    delete_not_coalescing.2
      { sampleWorld with
        startl := 0, b_undo := some ⟨[⟨[⟨.UDEL, 1, 5, 3, 0, none⟩], 0⟩], 1⟩ }
      (some ⟨2, 9⟩) [] ⟨[⟨[⟨.UDEL, 1, 5, 3, 0, none⟩], 0⟩], 1⟩ 2 rfl (by decide) rfl rfl
      (by
        intro prev hp
        cases hp
        right; right
        decide)⟩

theorem clearBits_testBit (x m i : Nat) :
    (clearBits x m).testBit i = (x.testBit i && !m.testBit i) := by
  simp only [clearBits, Nat.testBit_xor, Nat.testBit_and]
  cases x.testBit i <;> cases m.testBit i <;> rfl

theorem newundo_pending (w : World) (st : UNDOSTACK) (kind : UKIND) (line offset : Int)
    (hs : w.startl ≠ NOLINE) (hc : st.ngroups = st.groups.length) :
    newundo w st kind line offset =
      some ⟨(if N_UNDO ≤ st.ngroups then st.groups.tail else st.groups) ++
          [⟨[freshUndo kind line offset], w.b_flag⟩],
        if N_UNDO ≤ st.ngroups then st.ngroups else st.ngroups + 1⟩ := by
  have hopen := openGroup_pending w st hs hc
  rw [newundo_eq_some w st kind line offset _ (newgroup w) (congrArg UNDOSTACK.groups hopen),
    hopen]
  simp only [newgroup, List.nil_append]

theorem saveundo_first (c : SaveCall) (w : World) (st : UNDOSTACK)
    (hu : w.undoing = false) (hst : w.b_undo = some st)
    (hc : st.ngroups = st.groups.length) (hargs : ArgsOk c)
    (hs : w.startl ≠ NOLINE) (hno : continuesLast w c = false) :
    ∃ r us startl mline, saveundo c.kind c.pos c.ap w = some (r,
      { w with
        b_undo := some
          ⟨(if N_UNDO ≤ st.ngroups then st.groups.tail else st.groups) ++ [⟨us, w.b_flag⟩],
            if N_UNDO ≤ st.ngroups then st.ngroups else st.ngroups + 1⟩
        startl := startl
        mline := mline }) := by
  have hnew := fun kind => newundo_pending w st kind (undoPos w c.pos).1 (undoPos w c.pos).2 hs hc
  obtain ⟨kind, pos, ap⟩ := c
  simp only at hnew
  cases kind with
  | UUNUSED => simp [ArgsOk] at hargs
  | other code => simp [ArgsOk] at hargs
  | UMOVE =>
    refine ⟨TRUE, [freshUndo .UMOVE (undoPos w pos).1 (undoPos w pos).2], NOLINE, w.mline, ?_⟩
    simp only [saveundo, hu, hst, hnew, saveDone]
    rfl
  | UCH =>
    match ap, hargs with
    | .int n :: .int ch :: more, _ =>
      refine ⟨TRUE, [{ freshUndo .UCH (undoPos w pos).1 (undoPos w pos).2 with n := n, c := toUchar ch }],
        NOLINE, w.mline, ?_⟩
      simp only [saveundo, hu, hst, hnew, saveDone, va_arg_int]
      rw [setUp_single]
      rfl
  | USTR =>
    match ap, hargs with
    | .int n :: .bytes s :: more, hns =>
      simp only [ArgsOk] at hns
      by_cases hn1 : n = 1
      · cases s with
        | nil =>
          simp only [List.length_nil, Nat.cast_zero] at hns
          omega
        | cons s0 srest =>
          refine ⟨TRUE, [{ freshUndo .UCH (undoPos w pos).1 (undoPos w pos).2 with n := 1, c := s0 }],
            NOLINE, w.mline, ?_⟩
          simp only [saveundo, hu, hst, hnew, hn1, saveDone, va_arg_int, va_arg_ptr]
          rw [setUp_single]
          rfl
      · by_cases hheap : w.ed.heap_ok = false
        · refine ⟨FALSE, [freshUndo .USTR (undoPos w pos).1 (undoPos w pos).2], w.startl,
            w.mline ++ [.outOfMemory], ?_⟩
          simp only [saveundo, hu, hst, hnew, hn1, va_arg_int, va_arg_ptr, hheap, mlwrite]
          rfl
        · have hbad : ¬ (n < 0 ∨ (s.length : Int) < n) := by omega
          refine ⟨TRUE, [{ freshUndo .USTR (undoPos w pos).1 (undoPos w pos).2 with
            s := some (s.take n.toNat), n := n }], NOLINE, w.mline, ?_⟩
          simp only [saveundo, hu, hst, hnew, hn1, va_arg_int, va_arg_ptr, hheap, hbad, saveDone]
          rw [setUp_single]
          rfl
  | UDEL =>
    match ap, hargs with
    | .int n :: more, _ =>
      have hm : canMerge (lastundo st) (undoPos w pos).1 (undoPos w pos).2 = false := by
        simpa only [continuesLast, hst] using hno
      refine ⟨TRUE, [{ freshUndo .UDEL (undoPos w pos).1 (undoPos w pos).2 with n := n }], NOLINE, w.mline, ?_⟩
      simp only [saveundo, hu, hst, hnew, va_arg_int, hm, saveDone]
      rw [setUp_single]
      rfl

theorem newundo_push (w : World) (st : UNDOSTACK) (kind : UKIND) (line offset : Int)
    (hs : w.startl ≠ NOLINE) (hc : st.ngroups = st.groups.length)
    (hle : st.groups.length ≤ 100) :
    newundo w st kind line offset =
      some ⟨(if st.groups.length = 100 then st.groups.tail else st.groups) ++
        [⟨[freshUndo kind line offset], w.b_flag⟩],
        ((min (st.groups.length + 1) 100 : Nat) : Int)⟩ := by
  have hopen := openGroup_pending w st hs hc
  have hnew := newundo_eq_some w st kind line offset _ (newgroup w)
    (congrArg UNDOSTACK.groups hopen)
  rw [hnew, hopen]
  simp only [newgroup, List.nil_append]
  by_cases h100 : st.groups.length = 100
  · have : N_UNDO ≤ st.ngroups := by rw [hc, h100]; decide
    simp [this, h100, hc]
  · have : ¬ N_UNDO ≤ st.ngroups := by
      rw [hc]
      simp only [N_UNDO]
      omega
    have hmin : min (st.groups.length + 1) 100 = st.groups.length + 1 := by omega
    rw [if_neg this, if_neg this, if_neg h100, hmin, hc]
    simp

theorem pushAll_groups (ps : List Push) (st : UNDOSTACK)
    (hs : ∀ p ∈ ps, p.w.startl ≠ NOLINE) (hc : st.ngroups = st.groups.length)
    (hle : st.groups.length ≤ 100) :
    pushAll ps st =
      some ⟨(st.groups ++ ps.map pushedGroup).drop (st.groups.length + ps.length - 100),
        if ps.length = 0 then st.ngroups
        else ((min (st.groups.length + ps.length) 100 : Nat) : Int)⟩ := by
  induction ps generalizing st with
  | nil =>
    have : st.groups.length - 100 = 0 := by omega
    simp [pushAll, this]
  | cons p ps ih =>
    have hp := hs p (by simp)
    have hps : ∀ q ∈ ps, q.w.startl ≠ NOLINE := fun q hq => hs q (by simp [hq])
    rw [pushAll, newundo_push p.w st p.kind p.line p.offset hp hc hle]
    simp only
    have hlen1 : ((if st.groups.length = 100 then st.groups.tail else st.groups) ++
          [(⟨[freshUndo p.kind p.line p.offset], p.w.b_flag⟩ : UNDOGROUP)]).length =
        min (st.groups.length + 1) 100 := by
      by_cases h100 : st.groups.length = 100
      · simp [h100]
      · simp [h100]; omega
    rw [ih _ hps (by simp only; rw [hlen1]) (by simp only; rw [hlen1]; omega)]
    simp only [hlen1]
    have hgroups : (if st.groups.length = 100 then st.groups.tail else st.groups) ++
          [(⟨[freshUndo p.kind p.line p.offset], p.w.b_flag⟩ : UNDOGROUP)] =
        (st.groups ++ [pushedGroup p]).drop (st.groups.length + 1 - 100) := by
      by_cases h100 : st.groups.length = 100
      · have hne : st.groups ≠ [] := by
          intro h0; rw [h0] at h100; simp at h100
        simp only [h100, if_true, pushedGroup]
        rw [show 100 + 1 - 100 = 1 by rfl, List.drop_one, List.tail_append_of_ne_nil hne]
      · have h0 : st.groups.length + 1 - 100 = 0 := by omega
        simp only [h100, if_false, pushedGroup, h0, List.drop_zero]
    rw [hgroups]
    congr 2
    · rw [List.map_cons, ← List.drop_append_of_le_length (by simp; omega), List.drop_drop,
        List.append_assoc, List.singleton_append]
      congr 1
      simp only [List.length_cons]
      omega
    · cases ps with
      | nil => simp
      | cons q qs =>
        simp only [List.length_cons, Nat.add_one_ne_zero, if_false]
        congr 1
        omega

/-- C3: on a history that holds `k` groups (`ngroups = k`, `k ≤ 100`), a `newundo`
call made with a pending start creates a group and leaves `min (k + 1) 100`
groups: the previous groups in their order, without the first one when
`k = 100`, followed by the new group, which holds the new record.  This is what
the first `saveundo` call after a `startsaveundo` does, for every known kind,
unless it is a Delete merged into the last record.  Creating 101 groups in a new
stack leaves the last 100 of them in the order of creation. -/
theorem capacity_eviction :
    (∀ (w : World) (st : UNDOSTACK) (kind : UKIND) (line offset : Int),
      w.startl ≠ NOLINE → st.ngroups = st.groups.length → st.groups.length ≤ 100 →
      ∃ st1, newundo w st kind line offset = some st1 ∧
        st1.groups = (if st.groups.length = 100 then st.groups.tail else st.groups) ++
          [⟨[freshUndo kind line offset], w.b_flag⟩] ∧
        st1.groups.length = min (st.groups.length + 1) 100 ∧
        st1.ngroups = st1.groups.length) ∧
    (∀ (c : SaveCall) (w : World) (st : UNDOSTACK),
      w.undoing = false → w.startl ≠ NOLINE → w.b_undo = some st →
      st.ngroups = st.groups.length → st.groups.length ≤ 100 → ArgsOk c →
      continuesLast w c = false →
      ∃ r w1 g, saveundo c.kind c.pos c.ap w = some (r, w1) ∧
        w1.b_undo = some
          ⟨(if st.groups.length = 100 then st.groups.tail else st.groups) ++ [g],
            ((min (st.groups.length + 1) 100 : Nat) : Int)⟩ ∧
        g.b_flag = w.b_flag) ∧
    (∀ ps : List Push, (∀ p ∈ ps, p.w.startl ≠ NOLINE) → ps.length = 101 →
      pushAll ps newstack = some ⟨(ps.drop 1).map pushedGroup, 100⟩) := by
  refine ⟨?_, ?_, ?_⟩
  · intro w st kind line offset hs hc hle
    refine ⟨_, newundo_push w st kind line offset hs hc hle, rfl, ?_, ?_⟩
    · by_cases h100 : st.groups.length = 100
      · simp [h100]
      · simp [h100]; omega
    · by_cases h100 : st.groups.length = 100
      · simp [h100]
      · simp [h100]; omega
  · intro c w st hu hs hst hc hle hargs hno
    obtain ⟨r, us, startl, mline, h⟩ := saveundo_first c w st hu hst hc hargs hs hno
    refine ⟨r, _, ⟨us, w.b_flag⟩, h, ?_, rfl⟩
    by_cases h100 : st.groups.length = 100
    · have hn : N_UNDO ≤ st.ngroups := by rw [hc, h100]; decide
      rw [if_pos hn, if_pos hn, if_pos h100, hc, h100]
      rfl
    · have hn : ¬ N_UNDO ≤ st.ngroups := by
        rw [hc]
        simp only [N_UNDO]
        omega
      have hmin : min (st.groups.length + 1) 100 = st.groups.length + 1 := by omega
      rw [if_neg hn, if_neg hn, if_neg h100, hmin, hc]
      simp
  · intro ps hs hlen
    have h := pushAll_groups ps newstack hs rfl (by simp [newstack])
    rw [h]
    simp [newstack, hlen]

/-- The three statements of `capacity_eviction` at concrete inputs: a first group
in a new stack, a first Move record after `startsaveundo`, and 101 groups. -/
theorem capacity_eviction_witness :
    (∃ st1, newundo { sampleWorld with startl := 0 } newstack .UMOVE 0 0 = some st1 ∧
      st1.groups = [⟨[freshUndo .UMOVE 0 0], 0⟩] ∧ st1.groups.length = 1 ∧
      st1.ngroups = st1.groups.length) ∧
    (∃ r w1 g, saveundo .UMOVE none [] (startsaveundo sampleWorld) = some (r, w1) ∧
      w1.b_undo = some ⟨[g], 1⟩ ∧ g.b_flag = 0) ∧
    pushAll (List.replicate 101 ⟨{ sampleWorld with startl := 0 }, .UMOVE, 0, 0⟩) newstack =
      some ⟨(List.replicate 100 ⟨{ sampleWorld with startl := 0 }, .UMOVE, 0, 0⟩).map pushedGroup,
        100⟩ :=
  ⟨capacity_eviction.1 { sampleWorld with startl := 0 } newstack .UMOVE 0 0 (by decide) rfl
      (by decide),
    capacity_eviction.2.1 ⟨.UMOVE, none, []⟩ (startsaveundo sampleWorld) newstack rfl (by decide)
      rfl rfl (by decide) trivial rfl,
    capacity_eviction.2.2 (List.replicate 101 ⟨{ sampleWorld with startl := 0 }, .UMOVE, 0, 0⟩)
      (by
        intro p hp
        rw [List.eq_of_mem_replicate hp]
        decide)
      (by simp)⟩

theorem SameRecorder.refl (w : World) : SameRecorder w w :=
  ⟨rfl, rfl, rfl, rfl, rfl⟩

theorem SameRecorder.trans {w w1 w2 : World} (h1 : SameRecorder w w1)
    (h2 : SameRecorder w1 w2) : SameRecorder w w2 :=
  ⟨h2.1.trans h1.1, h2.2.1.trans h1.2.1, h2.2.2.1.trans h1.2.2.1,
    h2.2.2.2.1.trans h1.2.2.2.1, h2.2.2.2.2.trans h1.2.2.2.2⟩

theorem runPrim_suppressed (p : Prim) (w : World) (h : w.undoing = true) :
    ∃ s w1, runPrim p w = some (s, w1) ∧ SameRecorder w w1 := by
  induction p generalizing w with
  | ret status => exact ⟨status, w, rfl, SameRecorder.refl w⟩
  | edit f k ih =>
    obtain ⟨s, w1, h1, h2⟩ := ih { w with ed := f w.ed } h
    exact ⟨s, w1, h1, h2⟩
  | look k ih =>
    obtain ⟨s, w1, h1, h2⟩ := ih w.ed w h
    exact ⟨s, w1, h1, h2⟩
  | save kind pos ap k ih =>
    obtain ⟨s, w1, h1, h2⟩ := ih TRUE w h
    refine ⟨s, w1, ?_, h2⟩
    simp only [runPrim, saveundo_suppressed kind pos ap w h]
    exact h1

theorem undoKind_suppressed (env : Env) (up : UNDO) (w : World) (h : w.undoing = true) :
    ∃ s w1, undoKind env up w = some (s, w1) ∧ SameRecorder w w1 := by
  unfold undoKind
  split
  · exact ⟨TRUE, w, rfl, SameRecorder.refl w⟩
  · split
    · exact runPrim_suppressed _ w h
    · exact runPrim_suppressed _ w h
  · exact ⟨TRUE, w, rfl, SameRecorder.refl w⟩
  · exact runPrim_suppressed _ w h
  · exact ⟨FALSE, _, rfl, ⟨rfl, rfl, rfl, rfl, rfl⟩⟩

theorem undostep_suppressed (env : Env) (up : UNDO) (w : World) (h : w.undoing = true) :
    ∃ s w1, undostep env up w = some (s, w1) ∧ SameRecorder w w1 := by
  unfold undostep
  by_cases hl : up.l = NOLINE
  · simp only [hl, ne_eq, not_true_eq_false, if_false, if_true]
    exact undoKind_suppressed env up w h
  · obtain ⟨s, w1, h1, h2⟩ := runPrim_suppressed (env.gotoline TRUE (up.l + 1)) w h
    simp only [ne_eq, hl, not_false_eq_true, if_true, h1]
    have h3 : SameRecorder w
        { w1 with ed := { w1.ed with w_doto := up.o, w_flag := w1.ed.w_flag ||| env.WFMOVE } } :=
      h2
    by_cases hs : s = TRUE
    · simp only [hs, if_true]
      obtain ⟨s2, w2, h4, h5⟩ := undoKind_suppressed env up
        { w1 with ed := { w1.ed with w_doto := up.o, w_flag := w1.ed.w_flag ||| env.WFMOVE } }
        (h2.2.2.1.trans h)
      exact ⟨s2, w2, h4, h3.trans h5⟩
    · simp only [hs, if_false]
      exact ⟨s, _, rfl, h3⟩

theorem stepStatuses_suppressed (env : Env) (l : List UNDO) (w : World)
    (h : w.undoing = true) :
    ∃ ss w1, stepStatuses (undostep env) l w = some (ss, w1) ∧ ss.length = l.length ∧
      SameRecorder w w1 := by
  induction l generalizing w with
  | nil => exact ⟨[], w, rfl, rfl, SameRecorder.refl w⟩
  | cons up rest ih =>
    obtain ⟨s, w1, h1, h2⟩ := undostep_suppressed env up w h
    obtain ⟨ss, w2, h3, h4, h5⟩ := ih w1 (h2.2.2.1.trans h)
    refine ⟨s :: ss, w2, ?_, by simp [h4], h2.trans h5⟩
    simp only [stepStatuses, h1, h3]

theorem playSteps_eq_keepStatus {σ : Type} (step : UNDO → σ → Option (Int × σ))
    (l : List UNDO) (status : Int) (w : σ) :
    playSteps step l status w =
      match stepStatuses step l w with
      | none => none
      | some (ss, w1) => some (keepStatus status ss, w1) := by
  induction l generalizing status w with
  | nil => simp [playSteps, stepStatuses, keepStatus]
  | cons up rest ih =>
    simp only [playSteps, stepStatuses]
    cases step up w with
    | none => rfl
    | some r =>
      obtain ⟨s, w1⟩ := r
      simp only [ih]
      cases stepStatuses step rest w1 with
      | none => rfl
      | some r2 => simp [keepStatus]

theorem keepStatus_all_true (status : Int) (ss : List Int) (h : ∀ s ∈ ss, s = TRUE) :
    keepStatus status ss = status := by
  induction ss generalizing status with
  | nil => rfl
  | cons s ss ih =>
    have hs : s = TRUE := h s (by simp)
    have := ih status (fun t ht => h t (by simp [ht]))
    simpa [keepStatus, hs] using this

theorem keepStatus_last_failure (status : Int) (pre post : List Int) (s : Int)
    (hs : s ≠ TRUE) (hpost : ∀ t ∈ post, t = TRUE) :
    keepStatus status (pre ++ s :: post) = s := by
  have h1 : keepStatus status (pre ++ s :: post) =
      keepStatus (keepStatus status pre) (s :: post) := by
    simp [keepStatus, List.foldl_append]
  have h2 : keepStatus (keepStatus status pre) (s :: post) = keepStatus s post := by
    simp [keepStatus, hs]
  rw [h1, h2, keepStatus_all_true s post hpost]

theorem exists_last_failure (ss : List Int) (h : ∃ s ∈ ss, s ≠ TRUE) :
    ∃ pre t post, ss = pre ++ t :: post ∧ t ≠ TRUE ∧ ∀ u ∈ post, u = TRUE := by
  induction ss with
  | nil =>
    obtain ⟨s, hs, _⟩ := h
    simp at hs
  | cons a ss ih =>
    by_cases hall : ∀ u ∈ ss, u = TRUE
    · obtain ⟨s, hs, hsne⟩ := h
      rcases List.mem_cons.1 hs with h1 | h1
      · exact ⟨[], a, ss, rfl, by rw [← h1]; exact hsne, hall⟩
      · exact absurd (hall s h1) hsne
    · push_neg at hall
      obtain ⟨pre, t, post, e, h3, h4⟩ := ih hall
      exact ⟨a :: pre, t, post, by simp [e], h3, h4⟩

theorem keepStatus_true_iff (ss : List Int) :
    keepStatus TRUE ss = TRUE ↔ ∀ s ∈ ss, s = TRUE := by
  constructor
  · intro h
    by_contra hne
    push_neg at hne
    obtain ⟨pre, t, post, e, h3, h4⟩ := exists_last_failure ss hne
    rw [e, keepStatus_last_failure TRUE pre post t h3 h4] at h
    exact h3 h
  · exact keepStatus_all_true TRUE ss

/-- C10: on a history with at least one group `undo` runs the step of every
record of the most recent group, whatever statuses the steps return, and
returns `TRUE` exactly when every step returned `TRUE`; otherwise it returns the
status of the last step, in replay order, that did not return `TRUE`. -/
theorem undo_status (env : Env) (f n : Int) (w : World) (gs : List UNDOGROUP)
    (g : UNDOGROUP) (k : Int) :
    ∃ ss w1 status w2,
      stepStatuses (undostep env) (replayOrder g.undos)
          { w with b_undo := some ⟨gs ++ [g], k⟩, undoing := true } = some (ss, w1) ∧
      ss.length = g.undos.length ∧
      undo env f n { w with b_undo := some ⟨gs ++ [g], k⟩ } = some (status, w2) ∧
      (status = TRUE ↔ ∀ s ∈ ss, s = TRUE) ∧
      (∀ pre s post, ss = pre ++ s :: post → s ≠ TRUE → (∀ t ∈ post, t = TRUE) →
        status = s) := by
  obtain ⟨ss, w1, h1, h2, h3⟩ := stepStatuses_suppressed env (replayOrder g.undos)
    { w with b_undo := some ⟨gs ++ [g], k⟩, undoing := true } rfl
  have hst : w1.b_undo = some ⟨gs ++ [g], k⟩ := h3.2.2.2.2
  have hundo : undo env f n { w with b_undo := some ⟨gs ++ [g], k⟩ } =
      undoFinish env g (keepStatus TRUE ss) w1 := by
    rw [undo_eq_playSteps, playSteps_eq_keepStatus, h1]
  simp only [undoFinish, hst] at hundo
  refine ⟨ss, w1, keepStatus TRUE ss, _, h1, ?_, hundo, keepStatus_true_iff ss, ?_⟩
  · rw [h2]; exact (replayOrder_perm g.undos).length_eq
  · intro pre s post e hs hpost
    rw [e]
    exact keepStatus_last_failure TRUE pre post s hs hpost

theorem linenoLoop_ge (hdr lp : Nat) (l : List LINE) (n : Int) : n ≤ linenoLoop hdr lp l n := by
  induction l generalizing n with
  | nil => simp [linenoLoop]
  | cons c rest ih =>
    simp only [linenoLoop]
    split
    · exact Int.le_refl n
    · have := ih (n + 1)
      omega

theorem lineno_ne_noline (e : Editor) (lp : Nat) : lineno e lp ≠ NOLINE := by
  have := linenoLoop_ge e.b_linep lp e.lines 0
  simp only [lineno, NOLINE]
  omega

theorem lor_land_self (x m : Nat) : (x ||| m) &&& m = m := by
  apply Nat.eq_of_testBit_eq
  intro i
  simp only [Nat.testBit_and, Nat.testBit_or]
  cases x.testBit i <;> cases m.testBit i <;> rfl

theorem clearBits_land (x m : Nat) : clearBits x m &&& m = 0 := by
  apply Nat.eq_of_testBit_eq
  intro i
  simp only [clearBits, Nat.testBit_and, Nat.testBit_xor, Nat.zero_testBit]
  cases x.testBit i <;> cases m.testBit i <;> rfl

theorem modified_restore (env : Env) (e : Editor) (F x w_flag : Nat) :
    modified env
        { e with
          b_flag := if F &&& env.BFCHG ≠ 0 then x ||| env.BFCHG else clearBits x env.BFCHG
          w_flag := w_flag } =
      decide (F &&& env.BFCHG ≠ 0) := by
  by_cases h : F &&& env.BFCHG ≠ 0
  · have hm : env.BFCHG ≠ 0 := by
      intro h0
      rw [h0] at h
      simp at h
    simp only [modified, h, if_true, lor_land_self, ne_eq, not_false_eq_true, decide_True,
      decide_eq_true_eq]
    exact hm
  · simp only [modified, h, if_false, clearBits_land]
    simp

theorem undo_result (env : Env) (f n : Int) (w : World) (gs : List UNDOGROUP)
    (g : UNDOGROUP) (k : Int) :
    ∃ status w1,
      SameRecorder { w with b_undo := some ⟨gs ++ [g], k⟩, undoing := true } w1 ∧
      undo env f n { w with b_undo := some ⟨gs ++ [g], k⟩ } =
        some (status,
          { w1 with
            ed := { w1.ed with
              b_flag := if g.b_flag &&& env.BFCHG ≠ 0 then w1.ed.b_flag ||| env.BFCHG
                else clearBits w1.ed.b_flag env.BFCHG
              w_flag := w1.ed.w_flag ||| env.WFMODE }
            b_undo := some ⟨gs, k - 1⟩
            undoing := false }) := by
  obtain ⟨ss, w1, h1, _, h3⟩ := stepStatuses_suppressed env (replayOrder g.undos)
    { w with b_undo := some ⟨gs ++ [g], k⟩, undoing := true } rfl
  have hst : w1.b_undo = some ⟨gs ++ [g], k⟩ := h3.2.2.2.2
  refine ⟨keepStatus TRUE ss, w1, h3, ?_⟩
  rw [undo_eq_playSteps, playSteps_eq_keepStatus, h1]
  simp only [undoFinish, hst, freegroup, List.length_append, List.length_singleton,
    Nat.add_sub_cancel]
  rw [List.eraseIdx_append_of_length_le (Nat.le_refl _)]
  simp

theorem newundo_keeps (w : World) (st : UNDOSTACK) (kind : UKIND) (line offset : Int) (F : Nat)
    (hF : w.b_flag = F) (hc : st.ngroups = st.groups.length)
    (h : LastFlag F st ∨ w.startl ≠ NOLINE) :
    ∃ gs us, newundo w st kind line offset =
      some ⟨gs ++ [⟨us ++ [freshUndo kind line offset], F⟩], ((gs.length + 1 : Nat) : Int)⟩ := by
  by_cases hs : w.startl = NOLINE
  · rcases h with ⟨gs, g, hg, hgF⟩ | h
    · refine ⟨gs, g.undos, ?_⟩
      rw [newundo_eq_some w st kind line offset gs g (by rw [openGroup_idle w st hs, hg]),
        openGroup_idle w st hs, hgF, hc, hg]
      simp
    · exact absurd hs h
  · have hopen := openGroup_pending w st hs hc
    by_cases hn : N_UNDO ≤ st.ngroups
    · rw [if_pos hn, if_pos hn] at hopen
      have hn1 : (100 : Int) ≤ st.ngroups := hn
      have hlen : st.groups.tail.length + 1 = st.groups.length := by
        rw [List.length_tail]
        omega
      refine ⟨st.groups.tail, [], ?_⟩
      rw [newundo_eq_some w st kind line offset _ (newgroup w)
        (congrArg UNDOSTACK.groups hopen), hopen, hlen, ← hc]
      simp only [newgroup, hF, List.nil_append]
    · rw [if_neg hn, if_neg hn] at hopen
      refine ⟨st.groups, [], ?_⟩
      rw [newundo_eq_some w st kind line offset _ (newgroup w)
        (congrArg UNDOSTACK.groups hopen), hopen, hc]
      simp only [newgroup, hF, List.nil_append, Nat.cast_add, Nat.cast_one]

theorem saveundo_inCommand (c : SaveCall) (w : World) (st : UNDOSTACK) (F : Nat)
    (hu : w.undoing = false) (hF : w.b_flag = F) (hst : w.b_undo = some st)
    (hc : st.ngroups = st.groups.length) (hargs : ArgsOk c)
    (h : LastFlag F st ∨ (w.startl ≠ NOLINE ∧ continuesLast w c = false)) :
    ∃ r w1, saveundo c.kind c.pos c.ap w = some (r, w1) ∧ InCommand F w1 ∧ w1.ed = w.ed := by
  have hnew : ∀ kind line offset, ∃ gs us, newundo w st kind line offset =
      some ⟨gs ++ [⟨us ++ [freshUndo kind line offset], F⟩], ((gs.length + 1 : Nat) : Int)⟩ := by
    intro kind line offset
    apply newundo_keeps w st kind line offset F hF hc
    rcases h with h | h
    · exact Or.inl h
    · exact Or.inr h.1
  obtain ⟨kind, pos, ap⟩ := c
  cases kind with
  | UUNUSED => simp [ArgsOk] at hargs
  | other code => simp [ArgsOk] at hargs
  | UMOVE =>
    obtain ⟨gs, us, hn⟩ := hnew .UMOVE (undoPos w pos).1 (undoPos w pos).2
    have heq : saveundo .UMOVE pos ap w = some (TRUE,
        { w with
          b_undo := some ⟨gs ++ [⟨us ++ [freshUndo .UMOVE (undoPos w pos).1 (undoPos w pos).2],
            F⟩], ((gs.length + 1 : Nat) : Int)⟩
          startl := NOLINE }) := by
      simp only [saveundo, hu, hst, hn, saveDone]
      rfl
    exact ⟨_, _, heq, ⟨hu, hF, gs, _, rfl⟩, rfl⟩
  | UCH =>
    obtain ⟨gs, us, hn⟩ := hnew .UCH (undoPos w pos).1 (undoPos w pos).2
    match ap, hargs with
    | .int n :: .int ch :: more, _ =>
      have heq : saveundo .UCH pos (.int n :: .int ch :: more) w = some (TRUE,
          { w with
            b_undo := some ⟨gs ++ [⟨us ++
              [{ freshUndo .UCH (undoPos w pos).1 (undoPos w pos).2 with
                  n := n, c := toUchar ch }], F⟩], ((gs.length + 1 : Nat) : Int)⟩
            startl := NOLINE }) := by
        simp only [saveundo, hu, hst, hn, saveDone, va_arg_int, setUp_concat]
        rfl
      exact ⟨_, _, heq, ⟨hu, hF, gs, _, rfl⟩, rfl⟩
  | USTR =>
    match ap, hargs with
    | .int n :: .bytes s :: more, hns =>
      simp only [ArgsOk] at hns
      by_cases hn1 : n = 1
      · obtain ⟨gs, us, hn⟩ := hnew .UCH (undoPos w pos).1 (undoPos w pos).2
        cases s with
        | nil =>
          simp only [List.length_nil, Nat.cast_zero] at hns
          omega
        | cons s0 srest =>
          have heq : saveundo .USTR pos (.int n :: .bytes (s0 :: srest) :: more) w = some (TRUE,
              { w with
                b_undo := some ⟨gs ++ [⟨us ++
                  [{ freshUndo .UCH (undoPos w pos).1 (undoPos w pos).2 with
                      n := 1, c := s0 }], F⟩], ((gs.length + 1 : Nat) : Int)⟩
                startl := NOLINE }) := by
            simp only [saveundo, hu, hst, hn, hn1, saveDone, va_arg_int, va_arg_ptr, setUp_concat]
            rfl
          exact ⟨_, _, heq, ⟨hu, hF, gs, _, rfl⟩, rfl⟩
      · obtain ⟨gs, us, hn⟩ := hnew .USTR (undoPos w pos).1 (undoPos w pos).2
        by_cases hheap : w.ed.heap_ok = false
        · have heq : saveundo .USTR pos (.int n :: .bytes s :: more) w = some (FALSE,
              { w with
                b_undo := some ⟨gs ++ [⟨us ++
                  [freshUndo .USTR (undoPos w pos).1 (undoPos w pos).2], F⟩],
                  ((gs.length + 1 : Nat) : Int)⟩
                mline := w.mline ++ [.outOfMemory] }) := by
            simp only [saveundo, hu, hst, hn, hn1, va_arg_int, va_arg_ptr, hheap, mlwrite]
            rfl
          exact ⟨_, _, heq, ⟨hu, hF, gs, _, rfl⟩, rfl⟩
        · have hbad : ¬ (n < 0 ∨ (s.length : Int) < n) := by omega
          have heq : saveundo .USTR pos (.int n :: .bytes s :: more) w = some (TRUE,
              { w with
                b_undo := some ⟨gs ++ [⟨us ++
                  [{ freshUndo .USTR (undoPos w pos).1 (undoPos w pos).2 with
                      s := some (s.take n.toNat), n := n }], F⟩],
                  ((gs.length + 1 : Nat) : Int)⟩
                startl := NOLINE }) := by
            simp only [saveundo, hu, hst, hn, hn1, va_arg_int, va_arg_ptr, hheap, hbad, saveDone,
              setUp_concat]
            rfl
          exact ⟨_, _, heq, ⟨hu, hF, gs, _, rfl⟩, rfl⟩
  | UDEL =>
    match ap, hargs with
    | .int n :: more, _ =>
      by_cases hm : canMerge (lastundo st) (undoPos w pos).1 (undoPos w pos).2 = true
      · have hlast : LastFlag F st := by
          rcases h with h | h
          · exact h
          · have := h.2
            simp only [continuesLast, hst, hm] at this
            cases this
        obtain ⟨gs, g, hg, hgF⟩ := hlast
        obtain ⟨groups, k⟩ := st
        obtain ⟨undos, b⟩ := g
        simp only at hg hc hgF
        subst hg hgF hc
        have heq : saveundo .UDEL pos (.int n :: more) w = some (TRUE,
            { w with
              b_undo := some ⟨gs ++ [⟨updLast (fun prev => { prev with n := wrapInt (prev.n + n) })
                undos,
                b⟩], ((gs.length + 1 : Nat) : Int)⟩
              startl := NOLINE }) := by
          simp only [saveundo, hu, hst, va_arg_int, hm, saveDone, setUp, updLast_concat]
          simp
        exact ⟨_, _, heq, ⟨hu, hF, gs, _, rfl⟩, rfl⟩
      · obtain ⟨gs, us, hn⟩ := hnew .UDEL (undoPos w pos).1 (undoPos w pos).2
        have heq : saveundo .UDEL pos (.int n :: more) w = some (TRUE,
            { w with
              b_undo := some ⟨gs ++ [⟨us ++
                [{ freshUndo .UDEL (undoPos w pos).1 (undoPos w pos).2 with n := n }], F⟩],
                ((gs.length + 1 : Nat) : Int)⟩
              startl := NOLINE }) := by
          simp only [saveundo, hu, hst, hn, va_arg_int, hm, saveDone, setUp_concat]
          rfl
        exact ⟨_, _, heq, ⟨hu, hF, gs, _, rfl⟩, rfl⟩

theorem runCmd_inCommand (rest : List CmdStep) (w : World) (F : Nat) (h : InCommand F w)
    (hrest : ∀ c, CmdStep.save c ∈ rest → ArgsOk c) :
    ∃ w1, runCmd rest w = some w1 ∧ InCommand F w1 := by
  induction rest generalizing w with
  | nil => exact ⟨w, rfl, h⟩
  | cons step rest ih =>
    have hrest1 : ∀ c, CmdStep.save c ∈ rest → ArgsOk c := fun c hc => hrest c (by simp [hc])
    cases step with
    | edit e =>
      obtain ⟨hu, hF, gs, us, hst⟩ := h
      exact ih { w with ed := e } ⟨hu, hF, gs, us, hst⟩ hrest1
    | save c =>
      obtain ⟨hu, hF, gs, us, hst⟩ := h
      obtain ⟨r, w1, h1, h2, _⟩ := saveundo_inCommand c w _ F hu hF hst (by simp)
        (hrest c (by simp)) (Or.inl ⟨gs, _, rfl, rfl⟩)
      obtain ⟨w2, h3, h4⟩ := ih w1 h2 hrest1
      exact ⟨w2, by simp only [runCmd, h1, h3], h4⟩

theorem startsaveundo_counts (w : World)
    (hc : ∀ st, w.b_undo = some st → st.ngroups = st.groups.length) :
    ∃ st, (startsaveundo w).b_undo = some st ∧ st.ngroups = st.groups.length := by
  cases hw : w.b_undo with
  | none => exact ⟨newstack, by simp [startsaveundo, hw], by simp [newstack]⟩
  | some st => exact ⟨st, by simp [startsaveundo, hw], hc st hw⟩

/-- C2, amended: let a command consist of `startsaveundo` followed by one or more
`saveundo` calls of known kinds with arguments of the right types, with any
changes of the editor state in between, on a history whose counter is the
number of its groups.  If the first call is not a Delete that is merged into
the last record of the most recent group, the command and one `undo` after it
run to their end, and after the `undo` the modified flag of the buffer
(`b_flag & BFCHG`) is what it was when `startsaveundo` was called. -/
theorem undo_restores_modified_flag (env : Env) (f n : Int) (w : World) (e0 : Editor)
    (first : SaveCall) (rest : List CmdStep)
    (hc : ∀ st, w.b_undo = some st → st.ngroups = st.groups.length)
    (hfirst : ArgsOk first) (hrest : ∀ c, CmdStep.save c ∈ rest → ArgsOk c)
    (hnew : continuesLast { startsaveundo w with ed := e0 } first = false) :
    ∃ w1 status w2,
      runCmd (.edit e0 :: .save first :: rest) (startsaveundo w) = some w1 ∧
      undo env f n w1 = some (status, w2) ∧
      modified env w2.ed = modified env w.ed := by
  obtain ⟨st, hst, hcount⟩ := startsaveundo_counts w hc
  have hstart : (startsaveundo w).startl ≠ NOLINE := lineno_ne_noline w.ed w.ed.w_dotp
  obtain ⟨r, w1, h1, h2, _⟩ := saveundo_inCommand first { startsaveundo w with ed := e0 } st
    w.ed.b_flag rfl rfl hst hcount hfirst (Or.inr ⟨hstart, hnew⟩)
  obtain ⟨w2, h3, h4⟩ := runCmd_inCommand rest w1 w.ed.b_flag h2 hrest
  obtain ⟨_, _, gs, us, hst2⟩ := h4
  have hw2 : w2 = { w2 with b_undo := some ⟨gs ++ [⟨us, w.ed.b_flag⟩],
      ((gs.length + 1 : Nat) : Int)⟩ } := by
    rw [← hst2]
  obtain ⟨status, w3, _, h6⟩ := undo_result env f n w2 gs ⟨us, w.ed.b_flag⟩
    ((gs.length + 1 : Nat) : Int)
  rw [← hw2] at h6
  refine ⟨w2, status, _, ?_, h6, ?_⟩
  · simp only [runCmd, h1, h3]
  · simp only [modified_restore]
    rfl

/-- A command that inserts three characters into the unmodified buffer, so that
the buffer is modified, and is then undone. -/
theorem undo_restores_modified_flag_witness :
    ∃ w1 status w2,
      runCmd [.edit sampleEditor, .save ⟨.UDEL, some ⟨1, 0⟩, [.int 3]⟩,
          .edit { sampleEditor with b_flag := 2, w_doto := 3 }]
        (startsaveundo sampleWorld) = some w1 ∧
      undo sampleEnv 0 1 w1 = some (status, w2) ∧
      modified sampleEnv w2.ed = modified sampleEnv sampleWorld.ed :=
  undo_restores_modified_flag sampleEnv 0 1 sampleWorld sampleEditor
    ⟨.UDEL, some ⟨1, 0⟩, [.int 3]⟩ [.edit { sampleEditor with b_flag := 2, w_doto := 3 }]
    (by intro st h; cases h) trivial (by intro c h; simp at h) rfl

/-- C2 fails as stated: in `typedWorld` the buffer is modified; a command that
starts there and records one Delete at line 0, offset 3 is merged into the group
of the earlier command, and `undo` leaves the buffer not modified. -/
theorem undo_modified_flag_counterexample :
    modified sampleEnv typedWorld.ed = true ∧
    ((runCmd [.save ⟨.UDEL, some ⟨1, 3⟩, [.int 1]⟩] (startsaveundo typedWorld)).bind
        (undo sampleEnv 0 1)).map (fun r => modified sampleEnv r.2.ed) = some false := by
  decide

theorem undo_after_replay (env : Env) (f n : Int) (w : World) (gs : List UNDOGROUP)
    (g : UNDOGROUP) (k : Int) :
    ∃ status w1,
      playSteps (undostep env) (replayOrder g.undos) TRUE
          { w with b_undo := some ⟨gs ++ [g], k⟩, undoing := true } = some (status, w1) ∧
      SameRecorder { w with b_undo := some ⟨gs ++ [g], k⟩, undoing := true } w1 ∧
      undo env f n { w with b_undo := some ⟨gs ++ [g], k⟩ } =
        some (status,
          { w1 with
            ed := { w1.ed with
              b_flag := if g.b_flag &&& env.BFCHG ≠ 0 then w1.ed.b_flag ||| env.BFCHG
                else clearBits w1.ed.b_flag env.BFCHG
              w_flag := w1.ed.w_flag ||| env.WFMODE }
            b_undo := some ⟨gs, k - 1⟩
            undoing := false }) := by
  obtain ⟨ss, w1, h1, _, h3⟩ := stepStatuses_suppressed env (replayOrder g.undos)
    { w with b_undo := some ⟨gs ++ [g], k⟩, undoing := true } rfl
  have hst : w1.b_undo = some ⟨gs ++ [g], k⟩ := h3.2.2.2.2
  have hplay : playSteps (undostep env) (replayOrder g.undos) TRUE
      { w with b_undo := some ⟨gs ++ [g], k⟩, undoing := true } =
        some (keepStatus TRUE ss, w1) := by
    rw [playSteps_eq_keepStatus, h1]
  refine ⟨keepStatus TRUE ss, w1, hplay, h3, ?_⟩
  rw [undo_eq_playSteps, hplay]
  simp only [undoFinish, hst, freegroup, List.length_append, List.length_singleton,
    Nat.add_sub_cancel]
  rw [List.eraseIdx_append_of_length_le (Nat.le_refl _)]
  simp

/-- C11: on a history with at least one group one `undo` call, for every value of
its two arguments and whatever statuses the replay steps return, removes exactly
the most recent group and decrements `ngroups` by one; the other groups, their
order and their records are as before. -/
theorem undo_pops_last_group (env : Env) (f n : Int) (w : World) (gs : List UNDOGROUP)
    (g : UNDOGROUP) (k : Int) :
    ∃ status w2, undo env f n { w with b_undo := some ⟨gs ++ [g], k⟩ } = some (status, w2) ∧
      w2.b_undo = some ⟨gs, k - 1⟩ := by
  obtain ⟨status, w1, _, _, h⟩ := undo_after_replay env f n w gs g k
  exact ⟨status, _, h, rfl⟩

theorem land_two_pow_ne_zero (x j : Nat) : x &&& 2 ^ j ≠ 0 ↔ x.testBit j = true := by
  constructor
  · intro h
    by_contra hb
    apply h
    apply Nat.eq_of_testBit_eq
    intro i
    simp only [Nat.testBit_and, Nat.zero_testBit, Nat.testBit_two_pow]
    by_cases hij : j = i
    · subst hij
      simp [hb]
    · simp [hij]
  · intro hb h
    have := congrArg (fun y => y.testBit j) h
    simp [hb, Nat.testBit_two_pow_self] at this

/-- C12: on a history with at least one group, after `undo` the modified flag of
the buffer (`b_flag & BFCHG`) is that of the flag copy of the popped group,
whatever the flag word was before and whatever the replayed primitives did to
it; every bit of `b_flag` outside `BFCHG` is as the replay left it; and when
`BFCHG` is one bit, that bit of `b_flag` is the bit of the flag copy. -/
theorem undo_sets_modified_bit (env : Env) (f n : Int) (w : World) (gs : List UNDOGROUP)
    (g : UNDOGROUP) (k : Int) :
    ∃ status w1 w2,
      playSteps (undostep env) (replayOrder g.undos) TRUE
          { w with b_undo := some ⟨gs ++ [g], k⟩, undoing := true } = some (status, w1) ∧
      undo env f n { w with b_undo := some ⟨gs ++ [g], k⟩ } = some (status, w2) ∧
      modified env w2.ed = decide (g.b_flag &&& env.BFCHG ≠ 0) ∧
      (∀ i, env.BFCHG.testBit i = false →
        w2.ed.b_flag.testBit i = w1.ed.b_flag.testBit i) ∧
      (∀ j, env.BFCHG = 2 ^ j → w2.ed.b_flag.testBit j = g.b_flag.testBit j) := by
  obtain ⟨status, w1, hplay, _, h⟩ := undo_after_replay env f n w gs g k
  refine ⟨status, w1, _, hplay, h, ?_, ?_, ?_⟩
  · exact modified_restore env _ _ _ _
  · intro i hi
    simp only
    split
    · simp [Nat.testBit_or, hi]
    · simp [clearBits_testBit, hi]
  · intro j hj
    simp only
    by_cases hb : g.b_flag.testBit j = true
    · have hne : g.b_flag &&& env.BFCHG ≠ 0 := by
        rw [hj]; exact (land_two_pow_ne_zero _ _).2 hb
      rw [if_pos hne, hj, Nat.testBit_or, Nat.testBit_two_pow_self, hb]
      simp
    · have hne : ¬ (g.b_flag &&& env.BFCHG ≠ 0) := by
        rw [hj]; exact fun h => hb ((land_two_pow_ne_zero _ _).1 h)
      have hb' : g.b_flag.testBit j = false := by simpa using hb
      rw [if_neg hne, clearBits_testBit, hj, Nat.testBit_two_pow_self, hb']
      simp

theorem recordOf_pos (w : World) (c : SaveCall) :
    (recordOf w c).l = (undoPos w c.pos).1 ∧ (recordOf w c).o = (undoPos w c.pos).2 := by
  unfold recordOf
  split
  · exact ⟨rfl, rfl⟩
  · split
    · exact ⟨rfl, rfl⟩
    · split <;> exact ⟨rfl, rfl⟩
  · exact ⟨rfl, rfl⟩
  · exact ⟨rfl, rfl⟩

theorem saveundo_appends (c : SaveCall) (w : World) (st : UNDOSTACK) (gs : List UNDOGROUP)
    (g : UNDOGROUP) (hu : w.undoing = false) (hst : w.b_undo = some st) (hargs : ArgsOk c)
    (hno : continuesLast w c = false) (hopen : (openGroup w st).groups = gs ++ [g]) :
    ∃ r startl mline,
      saveundo c.kind c.pos c.ap w = some (r,
        { w with
          b_undo := some
            ⟨gs ++ [⟨g.undos ++ [recordOf w c], g.b_flag⟩], (openGroup w st).ngroups⟩
          startl := startl
          mline := mline }) ∧
      ((r = TRUE ∧ startl = NOLINE ∧ mline = w.mline) ∨
        (r = FALSE ∧ startl = w.startl ∧ mline = w.mline ++ [.outOfMemory] ∧
          c.kind = .USTR ∧ w.ed.heap_ok = false)) := by
  have hnew := fun kind =>
    newundo_eq_some w st kind (undoPos w c.pos).1 (undoPos w c.pos).2 gs g hopen
  obtain ⟨kind, pos, ap⟩ := c
  simp only at hnew
  cases kind with
  | UUNUSED => simp [ArgsOk] at hargs
  | other code => simp [ArgsOk] at hargs
  | UMOVE =>
    refine ⟨TRUE, NOLINE, w.mline, ?_, Or.inl ⟨rfl, rfl, rfl⟩⟩
    simp only [saveundo, hu, hst, hnew, saveDone, recordOf]
    rfl
  | UCH =>
    match ap, hargs with
    | .int n :: .int ch :: more, _ =>
      refine ⟨TRUE, NOLINE, w.mline, ?_, Or.inl ⟨rfl, rfl, rfl⟩⟩
      simp only [saveundo, hu, hst, hnew, saveDone, va_arg_int, setUp_concat, recordOf]
      rfl
  | USTR =>
    match ap, hargs with
    | .int n :: .bytes s :: more, hns =>
      simp only [ArgsOk] at hns
      by_cases hn1 : n = 1
      · cases s with
        | nil =>
          simp only [List.length_nil, Nat.cast_zero] at hns
          omega
        | cons s0 srest =>
          refine ⟨TRUE, NOLINE, w.mline, ?_, Or.inl ⟨rfl, rfl, rfl⟩⟩
          simp only [saveundo, hu, hst, hnew, hn1, saveDone, va_arg_int, va_arg_ptr,
            setUp_concat, recordOf]
          rfl
      · by_cases hheap : w.ed.heap_ok = false
        · refine ⟨FALSE, w.startl, w.mline ++ [.outOfMemory], ?_,
            Or.inr ⟨rfl, rfl, rfl, rfl, hheap⟩⟩
          simp only [saveundo, hu, hst, hnew, hn1, va_arg_int, va_arg_ptr, hheap, mlwrite,
            recordOf]
          rfl
        · have hbad : ¬ (n < 0 ∨ (s.length : Int) < n) := by omega
          refine ⟨TRUE, NOLINE, w.mline, ?_, Or.inl ⟨rfl, rfl, rfl⟩⟩
          simp only [saveundo, hu, hst, hnew, hn1, va_arg_int, va_arg_ptr, hheap, hbad,
            saveDone, setUp_concat, recordOf]
          rfl
  | UDEL =>
    match ap, hargs with
    | .int n :: more, _ =>
      have hm : canMerge (lastundo st) (undoPos w pos).1 (undoPos w pos).2 = false := by
        simpa only [continuesLast, hst] using hno
      refine ⟨TRUE, NOLINE, w.mline, ?_, Or.inl ⟨rfl, rfl, rfl⟩⟩
      simp only [saveundo, hu, hst, hnew, va_arg_int, hm, saveDone, setUp_concat, recordOf]
      rfl

theorem saveundo_startl (kind : UKIND) (pos : Option POS) (ap : List VaArg) (w w1 : World)
    (r : Int) (h : saveundo kind pos ap w = some (r, w1)) :
    (w.undoing = true ∧ w1 = w) ∨ (w1.startl = NOLINE ∧ r = TRUE) ∨
      (w1.startl = w.startl ∧ r = FALSE) := by
  unfold saveundo at h
  split at h
  · next hu =>
    cases h
    exact Or.inl ⟨hu, rfl⟩
  · right
    dsimp only at h
    simp only [saveDone, mlwrite] at h
    repeat' split at h
    all_goals
      first
      | (cases h; done)
      | (simp only [Option.some.injEq, Prod.mk.injEq] at h
         obtain ⟨rfl, rfl⟩ := h
         first
         | exact Or.inl ⟨rfl, rfl⟩
         | exact Or.inr ⟨rfl, rfl⟩)

theorem saveundo_failure (kind : UKIND) (pos : Option POS) (ap : List VaArg) (w w1 : World)
    (r : Int) (hu : w.undoing = false) (h : saveundo kind pos ap w = some (r, w1))
    (hr : r ≠ TRUE) :
    kind = .USTR ∧ w.ed.heap_ok = false ∧ r = FALSE ∧ w1.startl = w.startl ∧
      ∃ st st1, w.b_undo = some st ∧
        newundo w st .USTR (undoPos w pos).1 (undoPos w pos).2 = some st1 ∧
        w1.b_undo = some st1 := by
  unfold saveundo at h
  split at h
  · next hu1 =>
    rw [hu] at hu1
    cases hu1
  · dsimp only at h
    simp only [saveDone, mlwrite] at h
    repeat' split at h
    all_goals
      first
      | (cases h; done)
      | (simp only [Option.some.injEq, Prod.mk.injEq] at h
         obtain ⟨rfl, rfl⟩ := h
         first
         | exact absurd rfl hr
         | exact ⟨rfl, by assumption, rfl, rfl, _, _, by assumption, by assumption, rfl⟩)

theorem saveundo_first_record (c : SaveCall) (w : World) (st : UNDOSTACK)
    (hu : w.undoing = false) (hs : w.startl ≠ NOLINE) (hst : w.b_undo = some st)
    (hc : st.ngroups = st.groups.length) (hargs : ArgsOk c)
    (hno : continuesLast w c = false) :
    ∃ r startl mline,
      saveundo c.kind c.pos c.ap w = some (r,
        { w with
          b_undo := some
            ⟨(if N_UNDO ≤ st.ngroups then st.groups.tail else st.groups) ++
                [⟨[recordOf w c], w.b_flag⟩],
              if N_UNDO ≤ st.ngroups then st.ngroups else st.ngroups + 1⟩
          startl := startl
          mline := mline }) := by
  have hopen := openGroup_pending w st hs hc
  obtain ⟨r, startl, mline, h, _⟩ := saveundo_appends c w st _ (newgroup w) hu hst hargs hno
    (congrArg UNDOSTACK.groups hopen)
  refine ⟨r, startl, mline, ?_⟩
  rw [h, hopen]
  rfl

/-- C14 (the code, with the command in which an allocation fails): the position
of a record.  `saveundo` uses the line number of the given
line and the given offset when a position is passed, otherwise the position
saved by `startsaveundo` when a start is pending, otherwise `NOLINE` for both;
every record that a call of a known kind appends carries this position.  Every
call that is not suppressed and returns `TRUE` clears the pending start, and a
cleared start stays cleared through every later `saveundo` call.  A record that
takes the position of a pending start is the only record of a new group.  But a
call that is not suppressed and does not return `TRUE` is an InsertString call
whose allocation failed: it has appended its record and leaves the start
pending.  So in the command `startsaveundo`, `saveundo (USTR, NULL, 2, "ab")`
with a failing `malloc`, `saveundo (UMOVE, NULL)` the first record and the
second record both carry the start position. -/
theorem record_position :
    (∀ (w : World) (p : POS), undoPos w (some p) = (lineno w.ed p.p, p.o)) ∧
    (∀ w : World, w.startl ≠ NOLINE → undoPos w none = (w.startl, w.starto)) ∧
    (∀ w : World, w.startl = NOLINE → undoPos w none = (NOLINE, NOLINE)) ∧
    (∀ (c : SaveCall) (w : World) (st : UNDOSTACK) (gs : List UNDOGROUP) (g : UNDOGROUP),
      w.undoing = false → w.b_undo = some st → ArgsOk c → continuesLast w c = false →
      (openGroup w st).groups = gs ++ [g] →
      ∃ r w1, saveundo c.kind c.pos c.ap w = some (r, w1) ∧
        w1.b_undo = some
          ⟨gs ++ [⟨g.undos ++ [recordOf w c], g.b_flag⟩], (openGroup w st).ngroups⟩ ∧
        (recordOf w c).l = (undoPos w c.pos).1 ∧ (recordOf w c).o = (undoPos w c.pos).2) ∧
    (∀ (kind : UKIND) (pos : Option POS) (ap : List VaArg) (w w1 : World),
      w.undoing = false → saveundo kind pos ap w = some (TRUE, w1) → w1.startl = NOLINE) ∧
    (∀ (kind : UKIND) (pos : Option POS) (ap : List VaArg) (w w1 : World) (r : Int),
      w.startl = NOLINE → saveundo kind pos ap w = some (r, w1) → w1.startl = NOLINE) ∧
    (∀ (c : SaveCall) (w : World) (st : UNDOSTACK),
      w.undoing = false → w.startl ≠ NOLINE → w.b_undo = some st →
      st.ngroups = st.groups.length → ArgsOk c → continuesLast w c = false →
      ∃ r w1 gs k, saveundo c.kind c.pos c.ap w = some (r, w1) ∧
        w1.b_undo = some ⟨gs ++ [⟨[recordOf w c], w.b_flag⟩], k⟩) ∧
    (∀ (kind : UKIND) (pos : Option POS) (ap : List VaArg) (w w1 : World) (r : Int),
      w.undoing = false → saveundo kind pos ap w = some (r, w1) → r ≠ TRUE →
      kind = .USTR ∧ w.ed.heap_ok = false ∧ r = FALSE ∧ w1.startl = w.startl ∧
        ∃ st st1, w.b_undo = some st ∧
          newundo w st .USTR (undoPos w pos).1 (undoPos w pos).2 = some st1 ∧
          w1.b_undo = some st1) ∧
    (startsaveundo oomWorld).startl = 0 ∧ (startsaveundo oomWorld).starto = 0 ∧
    saveundo .USTR none [.int 2, .bytes [97, 98]] (startsaveundo oomWorld) =
      some (FALSE,
        { startsaveundo oomWorld with
          b_undo := some ⟨[⟨[⟨.USTR, 0, 0, 0, 0, none⟩], 0⟩], 1⟩
          mline := [.outOfMemory] }) ∧
    saveundo .UMOVE none []
        { startsaveundo oomWorld with
          b_undo := some ⟨[⟨[⟨.USTR, 0, 0, 0, 0, none⟩], 0⟩], 1⟩
          mline := [.outOfMemory] } =
      some (TRUE,
        { startsaveundo oomWorld with
          b_undo := some
            ⟨[⟨[⟨.USTR, 0, 0, 0, 0, none⟩], 0⟩, ⟨[⟨.UMOVE, 0, 0, 0, 0, none⟩], 0⟩], 2⟩
          mline := [.outOfMemory]
          startl := NOLINE }) := by
  refine ⟨fun w p => rfl, ?_, ?_, ?_, ?_, ?_, ?_, ?_, by decide, by decide, by decide,
    by decide⟩
  · intro w h
    simp [undoPos, h]
  · intro w h
    simp [undoPos, h]
  · intro c w st gs g hu hst hargs hno hopen
    obtain ⟨r, startl, mline, h, _⟩ := saveundo_appends c w st gs g hu hst hargs hno hopen
    exact ⟨r, _, h, rfl, recordOf_pos w c⟩
  · intro kind pos ap w w1 hu h
    rcases saveundo_startl kind pos ap w w1 TRUE h with h1 | h1 | h1
    · rw [hu] at h1
      exact absurd h1.1 (by simp)
    · exact h1.1
    · exact absurd h1.2 (by decide)
  · intro kind pos ap w w1 r hs h
    rcases saveundo_startl kind pos ap w w1 r h with h1 | h1 | h1
    · rw [h1.2]; exact hs
    · exact h1.1
    · rw [h1.1]; exact hs
  · intro c w st hu hs hst hc hargs hno
    obtain ⟨r, startl, mline, h⟩ := saveundo_first_record c w st hu hs hst hc hargs hno
    exact ⟨r, _, _, _, h, rfl⟩
  · intro kind pos ap w w1 r hu h hr
    exact saveundo_failure kind pos ap w w1 r hu h hr

/-- The statements of `record_position` for a command that records the
character `x` at the dot and then a Delete at offset 4 of the second line, and
for an InsertString call whose allocation fails: the start stays pending. -/
theorem record_position_witness :
    undoPos (startsaveundo sampleWorld) none = (0, 0) ∧
    undoPos sampleWorld none = (NOLINE, NOLINE) ∧
    (∃ r w1, saveundo .UDEL (some ⟨2, 4⟩) [.int 1]
        { sampleWorld with b_undo := some ⟨[⟨[⟨.UCH, 0, 0, 1, 120, none⟩], 0⟩], 1⟩ } =
          some (r, w1) ∧
      w1.b_undo = some
        ⟨[⟨[⟨.UCH, 0, 0, 1, 120, none⟩, ⟨.UDEL, 1, 4, 1, 0, none⟩], 0⟩], 1⟩ ∧
      (recordOf { sampleWorld with b_undo := some ⟨[⟨[⟨.UCH, 0, 0, 1, 120, none⟩], 0⟩], 1⟩ }
        ⟨.UDEL, some ⟨2, 4⟩, [.int 1]⟩).l = 1 ∧
      (recordOf { sampleWorld with b_undo := some ⟨[⟨[⟨.UCH, 0, 0, 1, 120, none⟩], 0⟩], 1⟩ }
        ⟨.UDEL, some ⟨2, 4⟩, [.int 1]⟩).o = 4) ∧
    ({ sampleWorld with
        b_undo := some ⟨[⟨[⟨.UCH, 0, 0, 1, 120, none⟩], 0⟩], 1⟩ } : World).startl = NOLINE ∧
    ({ startsaveundo oomWorld with
        b_undo := some ⟨[⟨[⟨.USTR, 0, 0, 0, 0, none⟩], 0⟩], 1⟩
        mline := [.outOfMemory] } : World).startl = (startsaveundo oomWorld).startl :=
  ⟨record_position.2.1 (startsaveundo sampleWorld) (by decide),
    record_position.2.2.1 sampleWorld rfl,
    record_position.2.2.2.1 ⟨.UDEL, some ⟨2, 4⟩, [.int 1]⟩
      { sampleWorld with b_undo := some ⟨[⟨[⟨.UCH, 0, 0, 1, 120, none⟩], 0⟩], 1⟩ }
      ⟨[⟨[⟨.UCH, 0, 0, 1, 120, none⟩], 0⟩], 1⟩ [] ⟨[⟨.UCH, 0, 0, 1, 120, none⟩], 0⟩
      rfl rfl trivial rfl rfl,
    record_position.2.2.2.2.1 .UCH none [.int 1, .int 120] (startsaveundo sampleWorld)
      { sampleWorld with b_undo := some ⟨[⟨[⟨.UCH, 0, 0, 1, 120, none⟩], 0⟩], 1⟩ } rfl
      (by decide),
    (record_position.2.2.2.2.2.2.2.1 .USTR none [.int 2, .bytes [97, 98]]
      (startsaveundo oomWorld)
      { startsaveundo oomWorld with
        b_undo := some ⟨[⟨[⟨.USTR, 0, 0, 0, 0, none⟩], 0⟩], 1⟩
        mline := [.outOfMemory] } FALSE rfl (by decide) (by decide)).2.2.2.1⟩

/-- C15 (the code at a failing allocation): in a new stack with a pending start,
a `saveundo (USTR, NULL, 2, "ab")` call whose `malloc` fails returns `FALSE`, but
the stack, empty before the call, now holds a group with an InsertString record
that has no string, `ngroups` is 1, and the start is still pending. -/
theorem string_alloc_failure_records :
    (startsaveundo oomWorld).b_undo = some ⟨[], 0⟩ ∧
    saveundo .USTR none [.int 2, .bytes [97, 98]] (startsaveundo oomWorld) =
      some (FALSE,
        { startsaveundo oomWorld with
          b_undo := some ⟨[⟨[⟨.USTR, 0, 0, 0, 0, none⟩], 0⟩], 1⟩
          mline := [.outOfMemory] }) := by
  decide

theorem length_updLast {α : Type} (f : α → α) (l : List α) :
    (updLast f l).length = l.length := by
  rcases list_nil_or_concat l with h | ⟨init, a, h⟩
  · subst h; rfl
  · subst h; simp [updLast_concat]

theorem saveundo_stack (kind : UKIND) (pos : Option POS) (ap : List VaArg) (w w1 : World)
    (r : Int) (h : saveundo kind pos ap w = some (r, w1)) :
    w1.b_undo = w.b_undo ∨
      ∃ st, w.b_undo = some st ∧
        ((∃ f, w1.b_undo = some (setUp f st)) ∨
          ∃ k st1, newundo w st k (undoPos w pos).1 (undoPos w pos).2 = some st1 ∧
            (w1.b_undo = some st1 ∨ ∃ f, w1.b_undo = some (setUp f st1))) := by
  unfold saveundo at h
  split at h
  · cases h
    exact Or.inl rfl
  · dsimp only at h
    simp only [saveDone, mlwrite] at h
    repeat' split at h
    all_goals
      first
      | (cases h; done)
      | (simp only [Option.some.injEq, Prod.mk.injEq] at h
         obtain ⟨rfl, rfl⟩ := h
         first
         | exact Or.inl rfl
         | exact Or.inr ⟨_, ‹w.b_undo = some _›, Or.inl ⟨_, rfl⟩⟩
         | exact Or.inr ⟨_, ‹w.b_undo = some _›,
             Or.inr ⟨_, _, ‹newundo _ _ _ _ _ = some _›, Or.inl rfl⟩⟩
         | exact Or.inr ⟨_, ‹w.b_undo = some _›,
             Or.inr ⟨_, _, ‹newundo _ _ _ _ _ = some _›, Or.inr ⟨_, rfl⟩⟩⟩)

theorem setUp_goodStack (f : UNDO → UNDO) (st : UNDOSTACK) (h : GoodStack st) :
    GoodStack (setUp f st) := by
  obtain ⟨groups, k⟩ := st
  obtain ⟨h1, h2, h3⟩ := h
  simp only at h1 h2 h3
  rcases list_nil_or_concat groups with h0 | ⟨gs, g, hg⟩
  · subst h0
    exact ⟨h1, h2, h3⟩
  · subst hg
    refine ⟨?_, ?_, ?_⟩
    · simpa [setUp, updLast_concat] using h1
    · simpa [setUp, updLast_concat] using h2
    · intro x hx
      simp only [setUp, updLast_concat] at hx
      rcases List.mem_append.1 hx with hx1 | hx1
      · exact h3 x (List.mem_append.2 (Or.inl hx1))
      · simp only [List.mem_singleton] at hx1
        subst hx1
        have hg := h3 g (by simp)
        intro hnil
        apply hg
        have hlen := congrArg List.length hnil
        simp only [length_updLast, List.length_nil] at hlen
        exact List.length_eq_zero.1 hlen

theorem newundo_goodStack (w : World) (st st1 : UNDOSTACK) (kind : UKIND) (line offset : Int)
    (h : GoodStack st) (hnew : newundo w st kind line offset = some st1) : GoodStack st1 := by
  obtain ⟨h1, h2, h3⟩ := h
  obtain ⟨gs, g, hg, rfl⟩ := newundo_shape w st st1 kind line offset hnew
  by_cases hs : w.startl = NOLINE
  · rw [openGroup_idle w st hs] at hg ⊢
    refine ⟨?_, ?_, ?_⟩
    · simp only [h1, hg, List.length_append, List.length_singleton]
    · simpa [hg] using h2
    · intro x hx
      rcases List.mem_append.1 hx with hx1 | hx1
      · exact h3 x (by rw [hg]; exact List.mem_append.2 (Or.inl hx1))
      · simp only [List.mem_singleton] at hx1
        subst hx1
        simp
  · have hopen := openGroup_pending w st hs h1
    rw [hopen] at hg ⊢
    simp only at hg
    have hgs := List.append_inj_left' hg rfl
    refine ⟨?_, ?_, ?_⟩
    · simp only [List.length_append, List.length_singleton]
      rw [← hgs]
      by_cases hn : N_UNDO ≤ st.ngroups
      · have hn1 : (100 : Int) ≤ st.ngroups := hn
        rw [if_pos hn, if_pos hn, List.length_tail, h1]
        omega
      · rw [if_neg hn, if_neg hn, h1]
        simp
    · simp only [List.length_append, List.length_singleton]
      rw [← hgs]
      by_cases hn : N_UNDO ≤ st.ngroups
      · rw [if_pos hn, List.length_tail]
        omega
      · have hn1 : ¬ (100 : Int) ≤ st.ngroups := hn
        rw [if_neg hn]
        omega
    · intro x hx
      rcases List.mem_append.1 hx with hx1 | hx1
      · rw [← hgs] at hx1
        by_cases hn : N_UNDO ≤ st.ngroups
        · rw [if_pos hn] at hx1
          exact h3 x (List.mem_of_mem_tail hx1)
        · rw [if_neg hn] at hx1
          exact h3 x hx1
      · simp only [List.mem_singleton] at hx1
        subst hx1
        simp

theorem saveundo_goodStack (kind : UKIND) (pos : Option POS) (ap : List VaArg) (w w1 : World)
    (r : Int) (st : UNDOSTACK) (hst : w.b_undo = some st) (hgood : GoodStack st)
    (h : saveundo kind pos ap w = some (r, w1)) :
    ∃ st1, w1.b_undo = some st1 ∧ GoodStack st1 := by
  rcases saveundo_stack kind pos ap w w1 r h with h1 | ⟨st0, hst0, h1⟩
  · exact ⟨st, by rw [h1, hst], hgood⟩
  · rw [hst] at hst0
    cases hst0
    rcases h1 with ⟨f, h2⟩ | ⟨k, st1, hnew, h2 | ⟨f, h2⟩⟩
    · exact ⟨_, h2, setUp_goodStack f st hgood⟩
    · exact ⟨_, h2, newundo_goodStack w st st1 k _ _ hgood hnew⟩
    · exact ⟨_, h2, setUp_goodStack f st1 (newundo_goodStack w st st1 k _ _ hgood hnew)⟩

theorem undo_goodStack (env : Env) (f n : Int) (w w1 : World) (r : Int) (st : UNDOSTACK)
    (hst : w.b_undo = some st) (hgood : GoodStack st)
    (h : undo env f n w = some (r, w1)) :
    ∃ st1, w1.b_undo = some st1 ∧ GoodStack st1 := by
  obtain ⟨groups, k⟩ := st
  rcases list_nil_or_concat groups with h0 | ⟨gs, g, hg⟩
  · subst h0
    simp only [undo, hst, List.getLast?_nil, mlwrite, Option.some.injEq, Prod.mk.injEq] at h
    obtain ⟨_, rfl⟩ := h
    exact ⟨_, rfl, hgood⟩
  · subst hg
    have hw : w = { w with b_undo := some ⟨gs ++ [g], k⟩ } := by
      rw [← hst]
    obtain ⟨status, w2, _, _, h2⟩ := undo_after_replay env f n w gs g k
    rw [← hw, h] at h2
    simp only [Option.some.injEq, Prod.mk.injEq] at h2
    obtain ⟨_, rfl⟩ := h2
    refine ⟨_, rfl, ?_⟩
    obtain ⟨h1, h2, h3⟩ := hgood
    simp only [List.length_append, List.length_singleton] at h1 h2
    refine ⟨?_, ?_, ?_⟩
    · simp only [h1]
      push_cast
      omega
    · simp only
      omega
    · intro x hx
      exact h3 x (List.mem_append.2 (Or.inl hx))

theorem runOp_goodStack (env : Env) (op : Op) (w w1 : World) (st : UNDOSTACK)
    (hst : w.b_undo = some st) (hgood : GoodStack st) (h : runOp env op w = some w1) :
    ∃ st1, w1.b_undo = some st1 ∧ GoodStack st1 := by
  cases op with
  | start =>
    simp only [runOp, Option.some.injEq] at h
    subst h
    exact ⟨st, by simp [startsaveundo, hst], hgood⟩
  | record c =>
    simp only [runOp] at h
    split at h
    · cases h
    · next r w2 hsave =>
      cases h
      exact saveundo_goodStack c.kind c.pos c.ap w w1 r st hst hgood hsave
  | disable =>
    simp only [runOp, Option.some.injEq] at h
    subst h
    exact ⟨st, hst, hgood⟩
  | enable =>
    simp only [runOp, Option.some.injEq] at h
    subst h
    exact ⟨st, hst, hgood⟩
  | undo f n =>
    simp only [runOp] at h
    split at h
    · cases h
    · next r w2 hundo =>
      cases h
      exact undo_goodStack env f n w w1 r st hst hgood hundo
  | edit e =>
    simp only [runOp, Option.some.injEq] at h
    subst h
    exact ⟨st, hst, hgood⟩

theorem runOps_goodStack (env : Env) (ops : List Op) (w w1 : World) (st : UNDOSTACK)
    (hst : w.b_undo = some st) (hgood : GoodStack st) (h : runOps env ops w = some w1) :
    ∃ st1, w1.b_undo = some st1 ∧ GoodStack st1 := by
  induction ops generalizing w st with
  | nil =>
    simp only [runOps, Option.some.injEq] at h
    subst h
    exact ⟨st, hst, hgood⟩
  | cons op rest ih =>
    simp only [runOps] at h
    split at h
    · cases h
    · next w2 hop =>
      obtain ⟨st2, hst2, hgood2⟩ := runOp_goodStack env op w w2 st hst hgood hop
      exact ih w2 st2 hst2 hgood2 h

theorem first_record_defined (c : SaveCall) (w : World) (st : UNDOSTACK)
    (hu : w.undoing = false) (hs : w.startl ≠ NOLINE) (hst : w.b_undo = some st)
    (hc : st.ngroups = st.groups.length) (hargs : ArgsOk c) :
    ∃ r w1, saveundo c.kind c.pos c.ap w = some (r, w1) := by
  by_cases hno : continuesLast w c = false
  · obtain ⟨r, startl, mline, h⟩ := saveundo_first_record c w st hu hs hst hc hargs hno
    exact ⟨r, _, h⟩
  · have hyes : continuesLast w c = true := by simpa using hno
    obtain ⟨kind, pos, ap⟩ := c
    cases kind with
    | UDEL =>
      match ap, hargs with
      | .int n :: more, _ =>
        have hm : canMerge (lastundo st) (undoPos w pos).1 (undoPos w pos).2 = true := by
          simpa only [continuesLast, hst] using hyes
        exact ⟨TRUE, _, by simp only [saveundo, hu, hst, va_arg_int, hm, saveDone]; rfl⟩
    | UUNUSED => simp [continuesLast] at hyes
    | UMOVE => simp [continuesLast] at hyes
    | UCH => simp [continuesLast] at hyes
    | USTR => simp [continuesLast] at hyes
    | other code => simp [continuesLast] at hyes

theorem setUp_groups_ne_nil (f : UNDO → UNDO) (st : UNDOSTACK) (h : st.groups ≠ []) :
    (setUp f st).groups ≠ [] := by
  rcases list_nil_or_concat st.groups with h1 | ⟨init, a, h1⟩
  · exact absurd h1 h
  · simp [setUp, h1, updLast_concat]

theorem record_defined (c : SaveCall) (w : World) (st : UNDOSTACK)
    (hst : w.b_undo = some st) (hc : st.ngroups = st.groups.length) (hargs : ArgsOk c)
    (hopen : w.startl ≠ NOLINE ∨ st.groups ≠ []) :
    ∃ r w1 st1, saveundo c.kind c.pos c.ap w = some (r, w1) ∧ w1.b_undo = some st1 ∧
      (w1.startl ≠ NOLINE ∨ st1.groups ≠ []) := by
  cases hu : w.undoing with
  | true =>
    exact ⟨TRUE, w, st, saveundo_suppressed c.kind c.pos c.ap w hu, hst, hopen⟩
  | false =>
    by_cases hno : continuesLast w c = false
    · have hgs : ∃ gs g, (openGroup w st).groups = gs ++ [g] := by
        by_cases hs : w.startl = NOLINE
        · rw [openGroup_idle w st hs]
          rcases hopen with h | h
          · exact absurd hs h
          · rcases list_nil_or_concat st.groups with h1 | ⟨init, a, h1⟩
            · exact absurd h1 h
            · exact ⟨init, a, h1⟩
        · rw [openGroup_pending w st hs hc]
          exact ⟨_, _, rfl⟩
      obtain ⟨gs, g, hgs⟩ := hgs
      obtain ⟨r, startl, mline, h, _⟩ := saveundo_appends c w st gs g hu hst hargs hno hgs
      exact ⟨r, _, _, h, rfl, Or.inr (by simp)⟩
    · have hyes : continuesLast w c = true := by simpa using hno
      obtain ⟨kind, pos, ap⟩ := c
      cases kind with
      | UDEL =>
        match ap, hargs with
        | .int n :: more, _ =>
          have hm : canMerge (lastundo st) (undoPos w pos).1 (undoPos w pos).2 = true := by
            simpa only [continuesLast, hst] using hyes
          have hne : st.groups ≠ [] := by
            intro h0
            simp [lastundo, h0, canMerge] at hm
          exact ⟨TRUE, _, _, by simp only [saveundo, hu, hst, va_arg_int, hm, saveDone]; rfl,
            rfl, Or.inr (setUp_groups_ne_nil _ st hne)⟩
      | UUNUSED => simp [continuesLast] at hyes
      | UMOVE => simp [continuesLast] at hyes
      | UCH => simp [continuesLast] at hyes
      | USTR => simp [continuesLast] at hyes
      | other code => simp [continuesLast] at hyes

theorem saveundo_unknown (kind : UKIND) (pos : Option POS) (ap : List VaArg) (w : World)
    (hk : knownKind kind = false) :
    ∃ r w1, saveundo kind pos ap w = some (r, w1) ∧ w1.b_undo = w.b_undo := by
  cases hu : w.undoing with
  | true => exact ⟨TRUE, w, saveundo_suppressed kind pos ap w hu, rfl⟩
  | false =>
    cases kind with
    | UUNUSED =>
      simp [saveundo, hu, saveDone, mlwrite]
      exact ⟨_, _, ⟨rfl, rfl⟩, rfl⟩
    | other code =>
      simp [saveundo, hu, saveDone, mlwrite]
      exact ⟨_, _, ⟨rfl, rfl⟩, rfl⟩
    | UMOVE => cases hk
    | UCH => cases hk
    | USTR => cases hk
    | UDEL => cases hk

theorem undo_defined (env : Env) (f n : Int) (w : World) (st : UNDOSTACK)
    (hst : w.b_undo = some st) : ∃ r w1, undo env f n w = some (r, w1) := by
  rcases list_nil_or_concat st.groups with h | ⟨gs, g, h⟩
  · simp only [undo, hst, h, List.getLast?_nil]
    exact ⟨_, _, rfl⟩
  · have hw : w = { w with b_undo := some ⟨gs ++ [g], st.ngroups⟩ } := by
      cases w
      cases st
      simp only at hst h
      simp only [hst, h]
    obtain ⟨status, w1, _, hundo⟩ := undo_result env f n w gs g st.ngroups
    rw [← hw] at hundo
    exact ⟨status, _, hundo⟩

theorem runOps_bracketed (env : Env) (ops : List Op) :
    ∀ (opened : Bool) (w : World) (st : UNDOSTACK), w.b_undo = some st → GoodStack st →
      (opened = true → w.startl ≠ NOLINE ∨ st.groups ≠ []) → Bracketed opened ops →
      ∃ w1, runOps env ops w = some w1 := by
  induction ops with
  | nil =>
    intro opened w st _ _ _ _
    exact ⟨w, rfl⟩
  | cons op rest ih =>
    intro opened w st hst hgood hinv hb
    cases op with
    | start =>
      simp only [Bracketed] at hb
      simp only [runOps, runOp]
      exact ih true (startsaveundo w) st (by simp [startsaveundo, hst]) hgood
        (fun _ => Or.inl (lineno_ne_noline w.ed w.ed.w_dotp)) hb
    | record c =>
      simp only [Bracketed] at hb
      by_cases hk : knownKind c.kind = true
      · rw [if_pos hk] at hb
        obtain ⟨ho, hargs, hb1⟩ := hb
        obtain ⟨r, w1, st1, hsave, hst1, hinv1⟩ :=
          record_defined c w st hst hgood.1 hargs (hinv ho)
        obtain ⟨st2, hst2, hgood2⟩ := saveundo_goodStack c.kind c.pos c.ap w w1 r st hst hgood hsave
        rw [hst1] at hst2
        cases hst2
        simp only [runOps, runOp, hsave]
        exact ih opened w1 st1 hst1 hgood2 (fun _ => hinv1) hb1
      · rw [if_neg hk] at hb
        obtain ⟨r, w1, hsave, hst1⟩ :=
          saveundo_unknown c.kind c.pos c.ap w (by simpa using hk)
        simp only [runOps, runOp, hsave]
        exact ih false w1 st (by rw [hst1, hst]) hgood (fun h => by cases h) hb
    | disable =>
      simp only [Bracketed] at hb
      simp only [runOps, runOp]
      exact ih opened (disablesaveundo w) st hst hgood hinv hb
    | enable =>
      simp only [Bracketed] at hb
      simp only [runOps, runOp]
      exact ih opened (enablesaveundo w) st hst hgood hinv hb
    | undo f n =>
      simp only [Bracketed] at hb
      obtain ⟨r, w1, hundo⟩ := undo_defined env f n w st hst
      obtain ⟨st1, hst1, hgood1⟩ := undo_goodStack env f n w w1 r st hst hgood hundo
      simp only [runOps, runOp, hundo]
      exact ih false w1 st1 hst1 hgood1 (fun h => by cases h) hb
    | edit e =>
      simp only [Bracketed] at hb
      simp only [runOps, runOp]
      exact ih opened { w with ed := e } st hst hgood hinv hb

/-- C18, amended: in every state reached from a new, empty undo stack by a
sequence of `startsaveundo`, `saveundo`, `disablesaveundo`, `enablesaveundo` and
`undo` calls (with any changes of the editor state in between) that runs without
undefined behaviour there is a stack whose `ngroups` is the number of its groups,
not negative and at most 100, and every group holds at least one record.  Every
sequence in which each `saveundo` call of a known kind has the arguments of its
kind and follows a `startsaveundo` call, with neither an `undo` call nor a
`saveundo` call of an unknown kind between the two, does run without undefined
behaviour and so ends in such a state.  After any sequence that runs, a
`startsaveundo` call followed by a `saveundo` call of a known kind runs too. -/
theorem history_invariant :
    (∀ (env : Env) (ops : List Op) (w0 w : World),
      w0.b_undo = some newstack → runOps env ops w0 = some w →
      ∃ st, w.b_undo = some st ∧ st.ngroups = st.groups.length ∧ 0 ≤ st.ngroups ∧
        st.ngroups ≤ 100 ∧ ∀ g ∈ st.groups, g.undos ≠ []) ∧
    (∀ (env : Env) (ops : List Op) (w0 : World),
      w0.b_undo = some newstack → Bracketed false ops →
      ∃ w st, runOps env ops w0 = some w ∧ w.b_undo = some st ∧
        st.ngroups = st.groups.length ∧ 0 ≤ st.ngroups ∧ st.ngroups ≤ 100 ∧
        ∀ g ∈ st.groups, g.undos ≠ []) ∧
    (∀ (env : Env) (ops : List Op) (w0 w : World) (e : Editor) (c : SaveCall),
      w0.b_undo = some newstack → runOps env ops w0 = some w → ArgsOk c →
      ∃ w1, runOps env (ops ++ [.start, .edit e, .record c]) w0 = some w1) := by
  have hnew : GoodStack newstack := ⟨rfl, by simp [newstack], by simp [newstack]⟩
  have hinv : ∀ (env : Env) (ops : List Op) (w0 w : World),
      w0.b_undo = some newstack → runOps env ops w0 = some w →
      ∃ st, w.b_undo = some st ∧ st.ngroups = st.groups.length ∧ 0 ≤ st.ngroups ∧
        st.ngroups ≤ 100 ∧ ∀ g ∈ st.groups, g.undos ≠ [] := by
    intro env ops w0 w h0 h
    obtain ⟨st, hst, h1, h2, h3⟩ := runOps_goodStack env ops w0 w newstack h0 hnew h
    refine ⟨st, hst, h1, ?_, ?_, h3⟩
    · rw [h1]; exact Int.ofNat_nonneg _
    · rw [h1]; exact_mod_cast h2
  refine ⟨hinv, ?_, ?_⟩
  · intro env ops w0 h0 hb
    obtain ⟨w, hrun⟩ :=
      runOps_bracketed env ops false w0 newstack h0 hnew (fun h => by cases h) hb
    obtain ⟨st, hst, h⟩ := hinv env ops w0 w h0 hrun
    exact ⟨w, st, hrun, hst, h⟩
  · intro env ops w0 w e c h0 h hargs
    obtain ⟨st, hst, h1, _, _⟩ := runOps_goodStack env ops w0 w newstack h0 hnew h
    have happ : ∀ (l1 l2 : List Op) (a b : World), runOps env l1 a = some b →
        runOps env (l1 ++ l2) a = runOps env l2 b := by
      intro l1 l2
      induction l1 with
      | nil =>
        intro a b hab
        simp only [runOps, Option.some.injEq] at hab
        subst hab
        rfl
      | cons op l1 ih =>
        intro a b hab
        simp only [runOps, List.cons_append] at hab ⊢
        split at hab
        · cases hab
        · next a2 hop =>
          exact ih a2 b hab
    rw [happ ops _ w0 w h]
    obtain ⟨r, w1, hsave⟩ := first_record_defined c { startsaveundo w with ed := e } st rfl
      (lineno_ne_noline w.ed w.ed.w_dotp) (by simp [startsaveundo, hst]) h1 hargs
    refine ⟨w1, ?_⟩
    simp only [runOps, runOp, hsave]

/-- C18 fails as stated: two sequences from the new stack of `newWorld` in which
the first `saveundo` call of the command follows the `startsaveundo` call.  In
the first one the call has an unknown kind: it clears the pending start and
creates no group, so the next call reaches `newundo` with an empty list and no
pending start, where `g` is the list header and not a group.  In the second one
an `undo` call empties the stack before the second `saveundo` call. -/
theorem history_invariant_counterexample :
    runOps sampleEnv [.start, .record ⟨.other 9, none, []⟩] newWorld =
      some { newWorld with mline := [.unimplemented (.other 9)] } ∧
    newundo { newWorld with mline := [.unimplemented (.other 9)] } ⟨[], 0⟩ .UMOVE NOLINE
      NOLINE = none ∧
    runOps sampleEnv [.start, .record ⟨.other 9, none, []⟩, .record ⟨.UMOVE, none, []⟩]
      newWorld = none ∧
    runOps sampleEnv [.start, .record ⟨.UMOVE, none, []⟩, .undo 0 1] newWorld =
      some { newWorld with ed := { sampleEditor with w_flag := 18 } } ∧
    runOps sampleEnv
      [.start, .record ⟨.UMOVE, none, []⟩, .undo 0 1, .record ⟨.UMOVE, none, []⟩]
      newWorld = none := by
  decide

theorem runPrim_frame (p : Prim) (w : World) (h : w.undoing = true) :
    (∃ s e, runPrim p w = some (s, { w with ed := e })) ∧
      ∀ w1 ∈ saveStates p w, w1.undoing = true ∧ w1.b_undo = w.b_undo := by
  induction p generalizing w with
  | ret status => exact ⟨⟨status, w.ed, rfl⟩, by simp [saveStates]⟩
  | edit f k ih =>
    obtain ⟨⟨s, e, h1⟩, h2⟩ := ih { w with ed := f w.ed } h
    exact ⟨⟨s, e, h1⟩, h2⟩
  | look k ih =>
    obtain ⟨⟨s, e, h1⟩, h2⟩ := ih w.ed w h
    exact ⟨⟨s, e, h1⟩, h2⟩
  | save kind pos ap k ih =>
    obtain ⟨⟨s, e, h1⟩, h2⟩ := ih TRUE w h
    constructor
    · refine ⟨s, e, ?_⟩
      simp only [runPrim, saveundo_suppressed kind pos ap w h]
      exact h1
    · intro w1 hw1
      rw [saveStates, saveundo_suppressed kind pos ap w h] at hw1
      simp only [List.mem_cons] at hw1
      rcases hw1 with rfl | hw1
      · exact ⟨h, rfl⟩
      · exact h2 w1 hw1

theorem undostep_frame (env : Env) (up : UNDO) (w : World) (h : w.undoing = true) :
    ∃ s e m, undostep env up w = some (s, { w with ed := e, mline := m }) := by
  have hkind : ∀ w0 : World, w0.undoing = true →
      ∃ s e m, undoKind env up w0 = some (s, { w0 with ed := e, mline := m }) := by
    intro w0 h0
    unfold undoKind
    split
    · exact ⟨TRUE, w0.ed, w0.mline, rfl⟩
    · split
      · obtain ⟨s, e, h1⟩ := (runPrim_frame (env.insert_newline FALSE up.n) w0 h0).1
        exact ⟨s, e, w0.mline, h1⟩
      · obtain ⟨s, e, h1⟩ := (runPrim_frame (env.linsert up.n up.c) w0 h0).1
        exact ⟨s, e, w0.mline, h1⟩
    · exact ⟨TRUE, w0.ed, w0.mline, rfl⟩
    · obtain ⟨s, e, h1⟩ := (runPrim_frame (env.ldelete up.n FALSE) w0 h0).1
      exact ⟨s, e, w0.mline, h1⟩
    · exact ⟨FALSE, w0.ed, _, rfl⟩
  unfold undostep
  by_cases hl : up.l = NOLINE
  · simp only [hl, ne_eq, not_true_eq_false, if_false, if_true]
    exact hkind w h
  · obtain ⟨s, e, h1⟩ := (runPrim_frame (env.gotoline TRUE (up.l + 1)) w h).1
    simp only [ne_eq, hl, not_false_eq_true, if_true, h1]
    by_cases hs : s = TRUE
    · simp only [hs, if_true]
      obtain ⟨s2, e2, m2, h2⟩ := hkind
        { w with ed := { e with w_doto := up.o, w_flag := e.w_flag ||| env.WFMOVE } } h
      exact ⟨s2, e2, m2, h2⟩
    · simp only [hs, if_false]
      exact ⟨s, _, w.mline, rfl⟩

theorem stepWorlds_suppressed (env : Env) (l : List UNDO) (w : World)
    (h : w.undoing = true) :
    ∃ ws, stepWorlds (undostep env) l w = some ws ∧ ws.length = l.length + 1 ∧
      ∀ w1 ∈ ws, w1.undoing = true ∧ w1.b_undo = w.b_undo := by
  induction l generalizing w with
  | nil => exact ⟨[w], rfl, rfl, by simp [h]⟩
  | cons up rest ih =>
    obtain ⟨s, e, m, h1⟩ := undostep_frame env up w h
    obtain ⟨ws, h2, h3, h4⟩ := ih { w with ed := e, mline := m } h
    refine ⟨w :: ws, ?_, by simp [h3], ?_⟩
    · simp only [stepWorlds, h1, h2]
    · intro w1 hw1
      rcases List.mem_cons.1 hw1 with rfl | hw1
      · exact ⟨h, rfl⟩
      · exact h4 w1 hw1

/-- C17: during `undo` on a history with at least one group the flag `undoing` is
set in the state before every replay step and after the last one, and the stack
is the one found on entry; a primitive run with `undoing` set makes its
`saveundo` calls in states where `undoing` is set, where they return `TRUE` and
change nothing, so the primitive changes the editor state only, and a step
changes the editor state and the message line only.  `undo` returns with
`undoing` clear and with the stack without its last group: no record and no
group is added.  (A primitive can reach `undo.c` through `saveundo` only.) -/
theorem replay_is_suppressed :
    (∀ (p : Prim) (w : World), w.undoing = true →
      (∃ s e, runPrim p w = some (s, { w with ed := e })) ∧
      ∀ w1 ∈ saveStates p w, w1.undoing = true ∧
        ∀ kind pos ap, saveundo kind pos ap w1 = some (TRUE, w1)) ∧
    (∀ (env : Env) (up : UNDO) (w : World), w.undoing = true →
      ∃ s e m, undostep env up w = some (s, { w with ed := e, mline := m })) ∧
    (∀ (env : Env) (f n : Int) (w : World) (gs : List UNDOGROUP) (g : UNDOGROUP) (k : Int),
      ∃ ws status w2,
        stepWorlds (undostep env) (replayOrder g.undos)
            { w with b_undo := some ⟨gs ++ [g], k⟩, undoing := true } = some ws ∧
        ws.length = g.undos.length + 1 ∧
        (∀ w1 ∈ ws, w1.undoing = true ∧ w1.b_undo = some ⟨gs ++ [g], k⟩) ∧
        undo env f n { w with b_undo := some ⟨gs ++ [g], k⟩ } = some (status, w2) ∧
        w2.undoing = false ∧ w2.b_undo = some ⟨gs, k - 1⟩) := by
  refine ⟨?_, undostep_frame, ?_⟩
  · intro p w h
    obtain ⟨h1, h2⟩ := runPrim_frame p w h
    refine ⟨h1, ?_⟩
    intro w1 hw1
    exact ⟨(h2 w1 hw1).1, fun kind pos ap => saveundo_suppressed kind pos ap w1 (h2 w1 hw1).1⟩
  · intro env f n w gs g k
    obtain ⟨ws, h1, h2, h3⟩ := stepWorlds_suppressed env (replayOrder g.undos)
      { w with b_undo := some ⟨gs ++ [g], k⟩, undoing := true } rfl
    obtain ⟨status, w1, _, _, h4⟩ := undo_after_replay env f n w gs g k
    refine ⟨ws, status, _, h1, ?_, h3, h4, rfl, rfl⟩
    rw [h2, (replayOrder_perm g.undos).length_eq]

/-- The statements of `replay_is_suppressed` for the deletion primitive of
`sampleEnv`, which records an insertion, run while `undoing` is set. -/
theorem replay_is_suppressed_witness :
    (∃ s e, runPrim (sampleEnv.ldelete 3 FALSE) (disablesaveundo newWorld) =
      some (s, { disablesaveundo newWorld with ed := e })) ∧
    ∀ w1 ∈ saveStates (sampleEnv.ldelete 3 FALSE) (disablesaveundo newWorld),
      w1.undoing = true ∧ ∀ kind pos ap, saveundo kind pos ap w1 = some (TRUE, w1) :=
  replay_is_suppressed.1 (sampleEnv.ldelete 3 FALSE) (disablesaveundo newWorld) rfl

theorem linenoLoop_indexOf (hdr lp : Nat) (lines : List LINE) (n : Int)
    (hh : ∀ l ∈ lines, l.p ≠ hdr) :
    linenoLoop hdr lp lines n = n + ((lines.map LINE.p).indexOf lp : Nat) := by
  induction lines generalizing n with
  | nil => simp [linenoLoop]
  | cons c rest ih =>
    have hc : c.p ≠ hdr := hh c (by simp)
    have hrest : ∀ l ∈ rest, l.p ≠ hdr := fun l hl => hh l (by simp [hl])
    by_cases hlp : c.p = lp
    · simp [linenoLoop, hlp, List.indexOf_cons_eq]
    · simp only [linenoLoop, hc, hlp, or_self, if_false, List.map_cons]
      rw [ih (n + 1) hrest, List.indexOf_cons_ne _ hlp]
      push_cast
      omega

theorem linenoLoop_at (hdr lp : Nat) (lines : List LINE) (n : Int) (i : Nat) (l : LINE)
    (hi : lines[i]? = some l) (hl : l.p = lp)
    (hbefore : ∀ j c, j < i → lines[j]? = some c → c.p ≠ hdr ∧ c.p ≠ lp) :
    linenoLoop hdr lp lines n = n + i := by
  induction lines generalizing n i with
  | nil => simp at hi
  | cons c rest ih =>
    cases i with
    | zero =>
      simp only [List.getElem?_cons_zero, Option.some.injEq] at hi
      subst hi
      simp [linenoLoop, hl]
    | succ i =>
      have hc := hbefore 0 c (by omega) (by simp)
      simp only [linenoLoop, hc.1, hc.2, or_self, if_false]
      rw [ih (n + 1) i (by simpa using hi)
        (fun j c2 hj hc2 => hbefore (j + 1) c2 (by omega) (by simpa using hc2))]
      push_cast
      omega

theorem linenoLoop_absent (hdr lp : Nat) (lines : List LINE) (n : Int)
    (hh : ∀ l ∈ lines, l.p ≠ hdr) (hlp : ∀ l ∈ lines, l.p ≠ lp) :
    linenoLoop hdr lp lines n = n + lines.length := by
  induction lines generalizing n with
  | nil => simp [linenoLoop]
  | cons c rest ih =>
    have h1 := hh c (by simp)
    have h2 := hlp c (by simp)
    simp only [linenoLoop, h1, h2, or_self, if_false, List.length_cons]
    rw [ih (n + 1) (fun l hl => hh l (by simp [hl])) (fun l hl => hlp l (by simp [hl]))]
    push_cast
    omega

theorem linenoWalk_indexOf (lforw : Nat → Nat) (hdr lp : Nat) (ls : List Nat) (fuel clp : Nat)
    (n : Int) (hring : RingFrom lforw hdr clp ls) (hfuel : ls.length < fuel) :
    linenoWalk lforw hdr lp fuel clp n = some (n + (ls.indexOf lp : Nat)) := by
  induction ls generalizing fuel clp n with
  | nil =>
    cases fuel with
    | zero => omega
    | succ fuel =>
      simp only [RingFrom] at hring
      simp [linenoWalk, hring]
  | cons l ls ih =>
    cases fuel with
    | zero => omega
    | succ fuel =>
      obtain ⟨hclp, hne, hrest⟩ := hring
      subst hclp
      by_cases hlp : clp = lp
      · simp [linenoWalk, hlp, List.indexOf_cons_eq]
      · simp only [linenoWalk, hne, hlp, or_self, if_false]
        rw [ih fuel (lforw clp) (n + 1) hrest (by simpa using hfuel),
          List.indexOf_cons_ne _ hlp]
        congr 1
        push_cast
        omega

/-- C19: for a buffer whose lines, from the first one on, are `lines` (none of
them is the header line), `lineno` returns for every line pointer the index of
its first occurrence among the lines: `i` for the line at index `i` when no
earlier line has the same address, and the number of lines for the header line
and for a line that is not in the buffer.  On the links of the lines
themselves the loop ends within one iteration more than there are lines and
returns the same number. -/
theorem lineno_index :
    (∀ (e : Editor) (lp : Nat), (∀ l ∈ e.lines, l.p ≠ e.b_linep) →
      lineno e lp = (((e.lines.map LINE.p).indexOf lp : Nat) : Int)) ∧
    (∀ (e : Editor) (i : Nat) (l : LINE), (∀ c ∈ e.lines, c.p ≠ e.b_linep) →
      e.lines[i]? = some l → (∀ j c, j < i → e.lines[j]? = some c → c.p ≠ l.p) →
      lineno e l.p = (i : Int)) ∧
    (∀ (e : Editor) (lp : Nat), (∀ l ∈ e.lines, l.p ≠ e.b_linep) →
      (lp = e.b_linep ∨ ∀ l ∈ e.lines, l.p ≠ lp) →
      lineno e lp = (e.lines.length : Int)) ∧
    (∀ (lforw : Nat → Nat) (hdr lp : Nat) (ls : List Nat) (fuel : Nat),
      RingFrom lforw hdr (lforw hdr) ls → ls.length < fuel →
      linenoWalk lforw hdr lp fuel (lforw hdr) 0 = some (((ls.indexOf lp : Nat)) : Int)) := by
  refine ⟨?_, ?_, ?_, ?_⟩
  · intro e lp hh
    simpa [lineno] using linenoLoop_indexOf e.b_linep lp e.lines 0 hh
  · intro e i l hh hi hbefore
    have := linenoLoop_at e.b_linep l.p e.lines 0 i l hi rfl
      (fun j c hj hc => ⟨hh c (List.mem_iff_getElem?.2 ⟨j, hc⟩), hbefore j c hj hc⟩)
    simpa [lineno] using this
  · intro e lp hh hlp
    have habs : ∀ l ∈ e.lines, l.p ≠ lp := by
      rcases hlp with rfl | h
      · exact hh
      · exact h
    simpa [lineno] using linenoLoop_absent e.b_linep lp e.lines 0 hh habs
  · intro lforw hdr lp ls fuel hring hfuel
    simpa using linenoWalk_indexOf lforw hdr lp ls fuel (lforw hdr) 0 hring hfuel

/-- The line numbers in the buffer of `sampleEditor`, whose two lines have the
addresses 1 and 2 and whose header line has the address 0. -/
theorem lineno_index_witness :
    lineno sampleEditor 2 = 1 ∧ lineno sampleEditor 0 = 2 ∧
    linenoWalk (fun p => (p + 1) % 3) 0 2 3 1 0 = some 1 :=
  ⟨lineno_index.2.1 sampleEditor 1 ⟨2, []⟩ (by decide) rfl
      (by
        intro j c hj hc
        have h0 : j = 0 := by omega
        subst h0
        cases hc
        decide),
    lineno_index.2.2.1 sampleEditor 0 (by decide) (Or.inl rfl),
    lineno_index.2.2.2 (fun p => (p + 1) % 3) 0 2 [1, 2] 3
      ⟨rfl, by decide, rfl, by decide, rfl⟩ (by decide)⟩

/-- C20 (the code of `undostep`): when the record has a line number and `gotoline`
does not return `TRUE`, the step is the `gotoline` call followed by the two
assignments to `w_doto` and `w_flag`, and returns the status of `gotoline`; no
other primitive is called.  When `gotoline` returns `TRUE`, or the record has no
line number, the step continues with exactly one call of `insert_newline` or
`linsert` for a character record and of `ldelete` for a Delete record, and with
no call for a Move record; for an InsertString record no primitive is called
either, and the step returns `TRUE`. -/
theorem undostep_cases :
    (∀ (env : Env) (up : UNDO) (w w1 : World) (s : Int), up.l ≠ NOLINE →
      runPrim (env.gotoline TRUE (up.l + 1)) w = some (s, w1) → s ≠ TRUE →
      undostep env up w = some (s,
        { w1 with
          ed := { w1.ed with w_doto := up.o, w_flag := w1.ed.w_flag ||| env.WFMOVE } })) ∧
    (∀ (env : Env) (up : UNDO) (w w1 : World), up.l ≠ NOLINE →
      runPrim (env.gotoline TRUE (up.l + 1)) w = some (TRUE, w1) →
      undostep env up w = undoKind env up
        { w1 with
          ed := { w1.ed with w_doto := up.o, w_flag := w1.ed.w_flag ||| env.WFMOVE } }) ∧
    (∀ (env : Env) (up : UNDO) (w : World), up.l = NOLINE →
      undostep env up w = undoKind env up w) ∧
    (∀ (env : Env) (up : UNDO) (w : World),
      (ukind up = .UMOVE → undoKind env up w = some (TRUE, w)) ∧
      (ukind up = .UCH → up.c = newline →
        undoKind env up w = runPrim (env.insert_newline FALSE up.n) w) ∧
      (ukind up = .UCH → up.c ≠ newline →
        undoKind env up w = runPrim (env.linsert up.n up.c) w) ∧
      (ukind up = .UDEL → undoKind env up w = runPrim (env.ldelete up.n FALSE) w) ∧
      (ukind up = .USTR → undoKind env up w = some (TRUE, w))) := by
  refine ⟨?_, ?_, ?_, ?_⟩
  · intro env up w w1 s hl hgo hs
    simp only [undostep, ne_eq, hl, not_false_eq_true, if_true, hgo, hs, if_false]
  · intro env up w w1 hl hgo
    simp only [undostep, ne_eq, hl, not_false_eq_true, if_true, hgo]
  · intro env up w hl
    simp only [undostep, hl, ne_eq, not_true_eq_false, if_false, if_true]
  · intro env up w
    refine ⟨?_, ?_, ?_, ?_, ?_⟩
    · intro hk
      simp only [undoKind, hk]
    · intro hk hc
      simp only [undoKind, hk, hc, if_true]
    · intro hk hc
      simp only [undoKind, hk, hc, if_false]
    · intro hk
      simp only [undoKind, hk]
    · intro hk
      simp only [undoKind, hk]

/-- A Delete record at line 7 replayed in the buffer of two lines of `newWorld`:
`gotoline` fails, the offset of the dot is set to 4 and nothing is deleted; and
an InsertString record without a position, for which nothing is inserted. -/
theorem undostep_cases_witness :
    undostep sampleEnv ⟨.UDEL, 7, 4, 1, 0, none⟩ newWorld =
      some (FALSE, { newWorld with ed := { sampleEditor with w_doto := 4, w_flag := 2 } }) ∧
    undostep sampleEnv ⟨.USTR, NOLINE, NOLINE, 2, 0, some [97, 98]⟩ newWorld =
      undoKind sampleEnv ⟨.USTR, NOLINE, NOLINE, 2, 0, some [97, 98]⟩ newWorld ∧
    undoKind sampleEnv ⟨.USTR, NOLINE, NOLINE, 2, 0, some [97, 98]⟩ newWorld =
      some (TRUE, newWorld) :=
  ⟨undostep_cases.1 sampleEnv ⟨.UDEL, 7, 4, 1, 0, none⟩ newWorld newWorld FALSE (by decide)
      rfl (by decide),
    undostep_cases.2.2.1 sampleEnv ⟨.USTR, NOLINE, NOLINE, 2, 0, some [97, 98]⟩ newWorld rfl,
    (undostep_cases.2.2.2 sampleEnv ⟨.USTR, NOLINE, NOLINE, 2, 0, some [97, 98]⟩
      newWorld).2.2.2.2 rfl⟩

/-- Two commands, an undo of the second one and a third command, run from the
new stack of `newWorld`: the run is defined and ends with two groups of one
record each, and `ngroups` is 2. -/
theorem history_invariant_witness :
    runOps sampleEnv
        [.start, .record ⟨.UCH, none, [.int 1, .int 120]⟩, .start,
          .record ⟨.UDEL, some ⟨2, 4⟩, [.int 2]⟩, .undo 0 1, .start,
          .record ⟨.UMOVE, none, []⟩] newWorld =
      some
        { newWorld with
          ed := { sampleEditor with w_dotp := 2, w_doto := 4, w_flag := 18 }
          starto := 4
          b_undo := some
            ⟨[⟨[⟨.UCH, 0, 0, 1, 120, none⟩], 0⟩, ⟨[⟨.UMOVE, 1, 4, 0, 0, none⟩], 0⟩], 2⟩ } ∧
    ∃ st : UNDOSTACK,
      st = ⟨[⟨[⟨.UCH, 0, 0, 1, 120, none⟩], 0⟩, ⟨[⟨.UMOVE, 1, 4, 0, 0, none⟩], 0⟩], 2⟩ ∧
      st.ngroups = st.groups.length ∧ 0 ≤ st.ngroups ∧ st.ngroups ≤ 100 ∧
      ∀ g ∈ st.groups, g.undos ≠ [] := by
  obtain ⟨w, st, hrun, hst, h⟩ := history_invariant.2.1 sampleEnv
    [.start, .record ⟨.UCH, none, [.int 1, .int 120]⟩, .start,
      .record ⟨.UDEL, some ⟨2, 4⟩, [.int 2]⟩, .undo 0 1, .start,
      .record ⟨.UMOVE, none, []⟩] newWorld rfl
    (by simp [Bracketed, knownKind, ArgsOk])
  have hW : runOps sampleEnv
      [.start, .record ⟨.UCH, none, [.int 1, .int 120]⟩, .start,
        .record ⟨.UDEL, some ⟨2, 4⟩, [.int 2]⟩, .undo 0 1, .start,
        .record ⟨.UMOVE, none, []⟩] newWorld =
      some
        { newWorld with
          ed := { sampleEditor with w_dotp := 2, w_doto := 4, w_flag := 18 }
          starto := 4
          b_undo := some
            ⟨[⟨[⟨.UCH, 0, 0, 1, 120, none⟩], 0⟩, ⟨[⟨.UMOVE, 1, 4, 0, 0, none⟩], 0⟩], 2⟩ } := by
    decide
  rw [hW] at hrun
  cases hrun
  cases hst
  exact ⟨hW, _, rfl, h⟩

end Uemacs
